import Mathlib

/-!
Shallow embedding of the AST construction/mutation engine of the Rebecca
repository (src/src/Tree.c) together with the parts of the missing
generator header (RebeccaGenerator.h) that Tree.c depends on.

The C heap is modelled as a list of node records; a `Node *` pointer is the
index of the record in that list (`none` models a NULL pointer where a
pointer may be NULL).  Every operation of Tree.c becomes a pure function
that returns the updated heap and tree; a result of `none` models a fatal
stop of the operation (a failed assert, a dereference of NULL, or - for the
fuel-indexed loops - a loop that has not finished within the given fuel).
-/

set_option linter.unusedVariables false

namespace Rebecca

/-- Token types of the language, from the TokenType enumeration of
RebeccaCompiler.h.  Tree.c also matches on TOKEN_SEMICOLON,
TOKEN_DOUBLE_QUOTE and TOKEN_SINGLE_QUOTE, which belong to the generator
header that is not part of the repository snapshot; they are added at the
end.  TOKEN_UNKNOWN is the first member (the zero value that calloc
produces). -/
inductive TokenType where
  | TOKEN_UNKNOWN
  | TOKEN_LEFT_PARENTHESIS
  | TOKEN_RIGHT_PARENTHESIS
  | TOKEN_LEFT_BRACKET
  | TOKEN_RIGHT_BRACKET
  | TOKEN_LEFT_BRACE
  | TOKEN_RIGHT_BRACE
  | TOKEN_COLON
  | TOKEN_DOT
  | TOKEN_COMMA
  | TOKEN_STAR
  | TOKEN_SLASH
  | TOKEN_BACK_SLASH
  | TOKEN_PERCENT
  | TOKEN_HASHTAG
  | TOKEN_PLUS
  | TOKEN_PLUSPLUS
  | TOKEN_MINUS
  | TOKEN_LL
  | TOKEN_GG
  | TOKEN_PIPE
  | TOKEN_PIPEPIPE
  | TOKEN_CARET
  | TOKEN_TILDE
  | TOKEN_QUESTION
  | TOKEN_EXCLAMATION
  | TOKEN_EQ
  | TOKEN_L
  | TOKEN_G
  | TOKEN_LEQ
  | TOKEN_GEQ
  | TOKEN_EQEQ
  | TOKEN_EXCLAMATION_EQ
  | TOKEN_BREAK
  | TOKEN_CONTINUE
  | TOKEN_CLASS
  | TOKEN_STRUCT
  | TOKEN_ELSE
  | TOKEN_FALSE
  | TOKEN_CYCLE
  | TOKEN_IF
  | TOKEN_LOAD
  | TOKEN_NULL
  | TOKEN_RETURN
  | TOKEN_STATIC
  | TOKEN_THIS
  | TOKEN_TRUE
  | TOKEN_PRIVATE
  | TOKEN_PUBLIC
  | TOKEN_NAME
  | TOKEN_NUMBER
  | TOKEN_COMP
  | TOKEN_UNDERLINE
  | TOKEN_EOF
  | TOKEN_SEMICOLON
  | TOKEN_DOUBLE_QUOTE
  | TOKEN_SINGLE_QUOTE
deriving DecidableEq, Repr, Fintype

/-- Modelled from the spec: the syntactic-role tag (PrsrNdType) of the
generator header, which is not part of the repository snapshot.  Tree.c
matches on the four role values below; ROLE_NONE stands for every other
member of the enumeration (the default case of CheckIfRuleName, and the
zero value calloc produces). -/
inductive PrsrNdType where
  | ROLE_NONE
  | VAR_NAME
  | RULE_NAME
  | RULE_NAME_REFERENCE
  | VAR_NAME_REFERENCE
deriving DecidableEq, Repr, Fintype

/-- A token record (the `Token` struct).  A C string that may be NULL is an
`Option String`; `txt = none` models a NULL `txt` pointer. -/
structure Token where
  type : TokenType
  txt : Option String
  value : Int
  parser_type : PrsrNdType
deriving DecidableEq, Repr

/-- A node record (the `Node` struct).  `children = none` models a NULL
children array, `some l` an allocated array holding the node addresses in
`l`; `parent = none` models a NULL parent pointer. -/
structure Node where
  token : Token
  children : Option (List Nat)
  parent : Option Nat
  id : Nat
deriving DecidableEq, Repr

/-- The `Tree` struct: `root`/`current` are nullable node pointers, `size`
is the running creation count. -/
structure Tree where
  root : Option Nat
  current : Option Nat
  size : Nat
deriving DecidableEq, Repr

/-- The heap: node records addressed by position. -/
abbrev Heap := List Node

/-- The all-zero node record (what reading through an invalid address
yields in the model; its `txt` is NULL, so operations that require a text
reject it). -/
def dNode : Node :=
  { token := { type := TokenType.TOKEN_UNKNOWN, txt := none, value := 0,
               parser_type := PrsrNdType.ROLE_NONE },
    children := none, parent := none, id := 0 }

instance : Inhabited Node := ⟨dNode⟩

/-- Read the node record at address `a`. -/
def nodeAt (h : Heap) (a : Nat) : Node := h.getD a dNode

/-- Write the node record at address `a` (no effect outside the heap, like
any write through an invalid address is outside the model's heap). -/
def setNode (h : Heap) (a : Nat) (n : Node) : Heap := h.set a n

/-- The child-address list of the node at `a` (empty both for a NULL and
for an empty children array; the operations distinguish the two through
`Node.children` directly where the C code dereferences the array). -/
def kidsOf (h : Heap) (a : Nat) : List Nat := (nodeAt h a).children.getD []

/-- The function `GetChild` of Tree.c: read the child of node `n` at index `idx`. -/
def GetChild (h : Heap) (n : Nat) (idx : Nat) : Nat := (kidsOf h n).getD idx 0

/-- The function `AddChild` of Tree.c.  The nullable `Tree *` and `Node *` arguments are
`Option`s; the three asserts fail (result `none`) exactly on a NULL tree, a
NULL child, or a child whose token text is NULL.  On a tree with no current
node the child becomes root and current; otherwise it is appended to the
current node's children (the array being created lazily), its parent
back-reference is set and the cursor moves onto it. -/
def AddChild (h : Heap) (t? : Option Tree) (c? : Option Nat) :
    Option (Heap × Tree × Nat) :=
  match t?, c? with
  | some t, some c =>
    match (nodeAt h c).token.txt with
    | none => none
    | some _ =>
      match t.current with
      | none => some (h, { t with root := some c, current := some c }, c)
      | some cur =>
        let ks := (nodeAt h cur).children.getD []
        let h1 := setNode h cur { nodeAt h cur with children := some (ks ++ [c]) }
        let last := GetChild h1 cur ((kidsOf h1 cur).length - 1)
        let h2 := setNode h1 last { nodeAt h1 last with parent := some cur }
        some (h2, { t with current := some c }, c)
  | _, _ => none

/-- The function `Parent` of Tree.c: `t->current = t->current->parent;` with no check of
any kind.  The only fatal case is a NULL current (the dereference); at the
root it silently sets `current` to NULL. -/
def Parent (h : Heap) (t : Tree) : Option Tree :=
  match t.current with
  | none => none
  | some cur => some { t with current := (nodeAt h cur).parent }

/-- The first block of `InsertParent` (the `if (t->current->parent != NULL)`
statement): when the old current node has a parent, overwrite the LAST slot
of that parent's children array with `n` (the `memcpy` at `size - 1`) and
point `n`'s parent reference at it; otherwise do nothing.  `none` models
the dereference of a NULL children array and the out-of-range `memcpy` on
an empty one. -/
def insertShiftSlot (h : Heap) (old n : Nat) : Option Heap :=
  match (nodeAt h old).parent with
  | none => some h
  | some p =>
    match (nodeAt h p).children with
    | none => none
    | some ks =>
      if ks.length = 0 then none
      else
        let h1 := setNode h p { nodeAt h p with children := some (ks.set (ks.length - 1) n) }
        some (setNode h1 n { nodeAt h1 n with parent := some p })

/-- The function `InsertParent` of Tree.c.  The slot overwrite of `insertShiftSlot`
runs first; then the cursor is moved onto `n`, the old current is appended
beneath `n` via `AddChild`, its parent pointer is re-stamped, the cursor
ascends back to `n` (`Parent`), and the root is swapped to `n` when the
old current was the root.  `none` models the NULL-current dereference, a
fatal stop inside `insertShiftSlot`, or a failing assert inside
`AddChild`. -/
def InsertParent (h : Heap) (t : Tree) (n : Nat) : Option (Heap × Tree) :=
  match t.current with
  | none => none
  | some old =>
    match insertShiftSlot h old n with
    | none => none
    | some h1 =>
      match AddChild h1 (some { t with current := some n }) (some old) with
      | none => none
      | some (h2, t2, _) =>
        let h3 := setNode h2 old { nodeAt h2 old with parent := some n }
        match Parent h3 t2 with
        | none => none
        | some t3 =>
          some (h3, if t3.root = some old then { t3 with root := some n } else t3)

/-- The body of the splice loop of `AppendTree`: at each iteration the loop
bound `second_cur->children->size` and the child `GetChild(second_cur, i)`
are re-read from the (possibly already mutated) heap, the child is appended
under `first->current` via `AddChild`, the cursor ascends back, and the
parent of `GetChild(first->current, i)` (index `i`, not the index of the
new slot) is re-stamped.  `none` models a NULL dereference, a failed
assert, an out-of-range child read, or an iteration count beyond `fuel`
(the C loop does not terminate when the re-read bound keeps growing). -/
def AppendLoop (h : Heap) (first : Tree) (sc : Nat) (i : Nat) (fuel : Nat) :
    Option (Heap × Tree) :=
  match fuel with
  | 0 => none
  | fuel' + 1 =>
    match (nodeAt h sc).children with
    | none => none
    | some ks =>
      if i < ks.length then
        match AddChild h (some first) (some (GetChild h sc i)) with
        | none => none
        | some (h1, t1, _) =>
          match Parent h1 t1 with
          | none => none
          | some t2 =>
            match t2.current with
            | none => none
            | some fc =>
              match (nodeAt h1 fc).children with
              | none => none
              | some fks =>
                if i < fks.length then
                  let target := fks.getD i 0
                  let h2 := setNode h1 target { nodeAt h1 target with parent := some fc }
                  AppendLoop h2 t2 sc (i + 1) fuel'
                else none
      else some (h, first)

/-- The function `AppendTree` of Tree.c.  The first loop of the C function only fills a
local buffer that is never read again, so it has no observable effect
beyond dereferencing `second_cur->children`; the second loop is
`AppendLoop`; finally `second->current` is redirected to alias
`first->current`. -/
def AppendTree (h : Heap) (first second : Tree) (fuel : Nat) :
    Option (Heap × Tree × Tree) :=
  match second.current with
  | none => none
  | some sc =>
    match (nodeAt h sc).children with
    | none => none
    | some _ =>
      match AppendLoop h first sc 0 fuel with
      | none => none
      | some (h', first') =>
        some (h', first', { second with current := first'.current })

/-- The function `CreateNode` of Tree.c: allocate a fresh zeroed node (NodeCtor), copy
the source token's text and type into it, stamp the address as `id` (the C
code uses the allocation address as the identifier) and increment
`t->size`.  Creation never touches `root`, `current` or any existing
node. -/
def CreateNode (h : Heap) (t : Tree) (tok : Token) : Heap × Tree × Nat :=
  let a := h.length
  let nd : Node :=
    { token := { type := tok.type, txt := tok.txt, value := 0,
                 parser_type := PrsrNdType.ROLE_NONE },
      children := none, parent := none, id := a }
  (h ++ [nd], { t with size := t.size + 1 }, a)

/-- The function `CreateNodeByType` of Tree.c: like `CreateNode` but the text is the
canonical rendering `TranslateTokenType(type)` of the token type.
`TranslateTokenType` lives in a file that is not part of the repository
snapshot, so it is an explicit function argument `tr` here. -/
def CreateNodeByType (tr : TokenType → String) (h : Heap) (t : Tree)
    (ty : TokenType) : Heap × Tree × Nat :=
  let a := h.length
  let nd : Node :=
    { token := { type := ty, txt := some (tr ty), value := 0,
                 parser_type := PrsrNdType.ROLE_NONE },
      children := none, parent := none, id := a }
  (h ++ [nd], { t with size := t.size + 1 }, a)

/-- The function `CellBordersFormat` of Tree.c: shape name from token type. -/
def CellBordersFormat : TokenType → String
  | TokenType.TOKEN_COLON => "none"
  | TokenType.TOKEN_SEMICOLON => "none"
  | TokenType.TOKEN_DOUBLE_QUOTE => "none"
  | TokenType.TOKEN_SINGLE_QUOTE => "none"
  | TokenType.TOKEN_EOF => "none"
  | TokenType.TOKEN_EQ => "none"
  | TokenType.TOKEN_NAME => "rectangle"
  | _ => "diamond"

/-- The function `CheckIfRuleName` of Tree.c: color name from syntactic role. -/
def CheckIfRuleName : PrsrNdType → String
  | PrsrNdType.VAR_NAME => "yellow"
  | PrsrNdType.RULE_NAME => "cyan"
  | PrsrNdType.RULE_NAME_REFERENCE => "red"
  | PrsrNdType.VAR_NAME_REFERENCE => "green"
  | PrsrNdType.ROLE_NONE => "black"

/-- A name token carrying the given text. -/
def nameTok (s : String) : Token :=
  { type := TokenType.TOKEN_NAME, txt := some s, value := 0,
    parser_type := PrsrNdType.ROLE_NONE }

/-- The just-constructed empty tree (all calloc zero). -/
def emptyTree : Tree := { root := none, current := none, size := 0 }

/-- One node record of the .dot export (the fields fprintf interpolates
into NODE_FMT: id, shape, color, primary label, secondary label). -/
structure NodeRec where
  id : Nat
  shape : String
  color : String
  txt : String
  second : String
deriving DecidableEq, Repr

/-- One line of the export document: the two header lines, a node record,
the blank separator, an edge record `n<a> -> n<b>`, or the closing
brace. -/
inductive Line where
  | header1
  | header2
  | nodeRec (r : NodeRec)
  | blank
  | edge (a b : Nat)
  | footer
deriving DecidableEq, Repr

/-- The record PrintNode emits for a single node: when the literal text
equals `TranslateTokenType` of the token's type the secondary label is
empty, otherwise it is that canonical type name.  `none` models the
`strcmp` on a NULL text. -/
def emitNode (tr : TokenType → String) (n : Node) : Option NodeRec :=
  match n.token.txt with
  | none => none
  | some s =>
    if s = tr n.token.type then
      some { id := n.id, shape := CellBordersFormat n.token.type,
             color := CheckIfRuleName n.token.parser_type, txt := s, second := "" }
    else
      some { id := n.id, shape := CellBordersFormat n.token.type,
             color := CheckIfRuleName n.token.parser_type, txt := s,
             second := tr n.token.type }

/-- The function `PrintNode` of Tree.c: append the node's record to the file, then run
the child loop (skipped on a NULL children array), which prints each child
in order, threading the file through.  The file is the list of lines
written so far; `fuel` bounds the recursion depth (the C recursion does
not terminate on a cyclic heap). -/
def PrintNode (tr : TokenType → String) (h : Heap) :
    Nat → Nat → List Line → Option (List Line)
  | 0, _, _ => none
  | fuel + 1, a, file =>
    match emitNode tr (nodeAt h a) with
    | none => none
    | some r =>
      match (nodeAt h a).children with
      | none => some (file ++ [Line.nodeRec r])
      | some ks =>
        ks.foldlM (fun acc c => PrintNode tr h fuel c acc) (file ++ [Line.nodeRec r])

/-- The edge records the first loop of `ConnectNode` writes for one node:
one edge per child, from the node's id to the child's id (no records on a
NULL children array). -/
def edgesOf (h : Heap) (a : Nat) : List Line :=
  (kidsOf h a).map (fun c => Line.edge (nodeAt h a).id (nodeAt h c).id)

/-- The function `ConnectNode` of Tree.c: append one edge record per child, then recurse
into the children (the second loop), threading the file through. -/
def ConnectNode (h : Heap) : Nat → Nat → List Line → Option (List Line)
  | 0, _, _ => none
  | fuel + 1, a, file =>
    match (nodeAt h a).children with
    | none => some (file ++ edgesOf h a)
    | some ks =>
      ks.foldlM (fun acc c => ConnectNode h fuel c acc) (file ++ edgesOf h a)

/-- The function `DebugTree` of Tree.c without the external render step: write the two
header lines, the node-emission pass from the root, a blank line, the
edge-emission pass from the root, and the closing brace.  `none` models
the assert of `PrintNode` on a NULL root. -/
def DebugTree (tr : TokenType → String) (h : Heap) (fuel : Nat) (t : Tree)
    (file : List Line) : Option (List Line) :=
  match t.root with
  | none => none
  | some r =>
    match PrintNode tr h fuel r (file ++ [Line.header1, Line.header2]) with
    | none => none
    | some f1 =>
      match ConnectNode h fuel r (f1 ++ [Line.blank]) with
      | none => none
      | some f2 => some (f2 ++ [Line.footer])

/-- The parent-child symmetry invariant of the spec, over the whole heap:
every node found in some node's children array is a valid address, appears
exactly once in that array, and its parent back-reference points at the
array's owner. -/
def SymInv (h : Heap) : Prop :=
  ∀ p ∈ List.range h.length, ∀ c ∈ kidsOf h p,
    c < h.length ∧ (nodeAt h c).parent = some p ∧ (kidsOf h p).count c = 1

instance (h : Heap) : Decidable (SymInv h) := by
  unfold SymInv; infer_instance

/-- The symmetry invariant on every node except one excluded address (used
for the state after `AppendTree`, whose second cursor keeps a stale
children array). -/
def SymInvExcept (h : Heap) (ex : Nat) : Prop :=
  ∀ p ∈ List.range h.length, p ≠ ex → ∀ c ∈ kidsOf h p,
    c < h.length ∧ (nodeAt h c).parent = some p ∧ (kidsOf h p).count c = 1

instance (h : Heap) (ex : Nat) : Decidable (SymInvExcept h ex) := by
  unfold SymInvExcept; infer_instance

/-- A fresh (detached, not yet inserted) node address: valid in the heap
and present in no children array. -/
def Fresh (h : Heap) (c : Nat) : Prop :=
  c < h.length ∧ ∀ p ∈ List.range h.length, c ∉ kidsOf h p

instance (h : Heap) (c : Nat) : Decidable (Fresh h c) := by
  unfold Fresh; infer_instance

theorem length_setNode (h : Heap) (a : Nat) (v : Node) :
    (setNode h a v).length = h.length := List.length_set h a v

theorem nodeAt_setNode_self {h : Heap} {a : Nat} (v : Node) (ha : a < h.length) :
    nodeAt (setNode h a v) a = v := by
  simp [nodeAt, setNode, List.getD_eq_getElem?_getD, List.getElem?_set_self ha]

theorem nodeAt_setNode_ne {h : Heap} {a b : Nat} (v : Node) (hne : b ≠ a) :
    nodeAt (setNode h a v) b = nodeAt h b := by
  simp [nodeAt, setNode, List.getD_eq_getElem?_getD,
    List.getElem?_set_ne (Ne.symm hne)]

theorem nodeAt_of_le {h : Heap} {a : Nat} (ha : h.length ≤ a) :
    nodeAt h a = dNode := by
  simp [nodeAt, List.getD_eq_getElem?_getD, List.getElem?_eq_none ha]

theorem kidsOf_setNode_self {h : Heap} {a : Nat} (v : Node) (ha : a < h.length) :
    kidsOf (setNode h a v) a = v.children.getD [] := by
  simp [kidsOf, nodeAt_setNode_self v ha]

theorem kidsOf_setNode_ne {h : Heap} {a b : Nat} (v : Node) (hne : b ≠ a) :
    kidsOf (setNode h a v) b = kidsOf h b := by
  simp [kidsOf, nodeAt_setNode_ne v hne]

/-- On a tree whose cursor sits on a valid node, a successful `AddChild`
is: append the child to the cursor's children, then point the child's
parent reference at the cursor. -/
theorem AddChild_cur_eq {h : Heap} {t : Tree} {c cur : Nat} {s : String}
    (hcur : t.current = some cur) (htxt : (nodeAt h c).token.txt = some s)
    (hlt : cur < h.length) :
    AddChild h (some t) (some c) =
      some (setNode (setNode h cur { nodeAt h cur with children := some (kidsOf h cur ++ [c]) }) c
              { nodeAt (setNode h cur { nodeAt h cur with children := some (kidsOf h cur ++ [c]) }) c
                  with parent := some cur },
            { t with current := some c }, c) := by
  simp only [AddChild, htxt, hcur, GetChild]
  rw [kidsOf_setNode_self _ hlt]
  simp [kidsOf, List.getD_eq_getElem?_getD, List.getElem?_concat_length]

/-- Semantic description of a successful `AddChild` on a valid cursor and a
child distinct from it: the cursor node gains the child at the end of its
children, the child's parent reference is set to the cursor, and no other
record changes. -/
theorem AddChild_facts {h : Heap} {t : Tree} {c cur : Nat} {s : String}
    (hcur : t.current = some cur) (htxt : (nodeAt h c).token.txt = some s)
    (hclt : c < h.length) (hlt : cur < h.length) (hcc : c ≠ cur) :
    ∃ h', AddChild h (some t) (some c) = some (h', { t with current := some c }, c)
      ∧ h'.length = h.length
      ∧ nodeAt h' cur = { nodeAt h cur with children := some (kidsOf h cur ++ [c]) }
      ∧ nodeAt h' c = { nodeAt h c with parent := some cur }
      ∧ (∀ b, b ≠ cur → b ≠ c → nodeAt h' b = nodeAt h b) := by
  refine ⟨_, AddChild_cur_eq hcur htxt hlt, ?_, ?_, ?_, ?_⟩
  · simp [length_setNode]
  · rw [nodeAt_setNode_ne _ (Ne.symm hcc), nodeAt_setNode_self _ hlt]
  · rw [nodeAt_setNode_self _ (by rw [length_setNode]; exact hclt),
      nodeAt_setNode_ne _ hcc]
  · intro b hbcur hbc
    rw [nodeAt_setNode_ne _ hbc, nodeAt_setNode_ne _ hbcur]

/-- Overwriting the last slot of a nonempty list is dropping its last
element and appending the new one. -/
theorem set_last_eq_dropLast {α : Type} (l : List α) (x : α) (hl : l ≠ []) :
    l.set (l.length - 1) x = l.dropLast ++ [x] := by
  have hlt : l.length - 1 < l.length := by
    cases l with
    | nil => simp at hl
    | cons a as => simp
  have hsum : l.length - 1 + 1 = l.length := by omega
  rw [List.set_eq_take_append_cons_drop, if_pos hlt, List.dropLast_eq_take, hsum,
    List.drop_length]

/-- When the old current node has a parent with a nonempty children array,
the first block of InsertParent overwrites the array's last slot with `n`,
points `n`'s parent at that parent, and changes nothing else. -/
theorem insertShiftSlot_parent_facts {h : Heap} {old n P : Nat} {ks : List Nat}
    (hpar : (nodeAt h old).parent = some P)
    (hch : (nodeAt h P).children = some ks) (hkne : ks ≠ [])
    (hPlt : P < h.length) (hnlt : n < h.length) (hPn : P ≠ n) :
    ∃ h1, insertShiftSlot h old n = some h1
      ∧ h1.length = h.length
      ∧ nodeAt h1 P = { nodeAt h P with children := some (ks.set (ks.length - 1) n) }
      ∧ nodeAt h1 n = { nodeAt h n with parent := some P }
      ∧ (∀ b, b ≠ P → b ≠ n → nodeAt h1 b = nodeAt h b) := by
  have hk0 : ¬ ks.length = 0 := by simpa [List.length_eq_zero] using hkne
  have heq : insertShiftSlot h old n =
      some (setNode (setNode h P { nodeAt h P with children := some (ks.set (ks.length - 1) n) }) n
        { nodeAt (setNode h P { nodeAt h P with children := some (ks.set (ks.length - 1) n) }) n
            with parent := some P }) := by
    simp only [insertShiftSlot, hpar, hch, if_neg hk0]
  refine ⟨_, heq, ?_, ?_, ?_, ?_⟩
  · simp [length_setNode]
  · rw [nodeAt_setNode_ne _ hPn, nodeAt_setNode_self _ hPlt]
  · rw [nodeAt_setNode_self _ (by rw [length_setNode]; exact hnlt),
      nodeAt_setNode_ne _ (Ne.symm hPn)]
  · intro b hbP hbn
    rw [nodeAt_setNode_ne _ hbn, nodeAt_setNode_ne _ hbP]

/-- When the old current node is the root (NULL parent), the first block of
InsertParent does nothing. -/
theorem insertShiftSlot_root_facts {h : Heap} {old n : Nat}
    (hpar : (nodeAt h old).parent = none) :
    insertShiftSlot h old n = some h := by
  simp [insertShiftSlot, hpar]

/-- Semantic description of `InsertParent` when the current node `X` has a
parent `P` with a nonempty children array: the array's LAST slot becomes
`n`, `n` points at `P` and gains `X` at the end of its children, `X`
points at `n`, the cursor ends on `n` and every other record - the whole
subtree below `X` included - is untouched. -/
theorem InsertParent_parent_facts {h : Heap} {t : Tree} {n X P : Nat}
    {ks : List Nat} {s : String}
    (hcur : t.current = some X) (hpar : (nodeAt h X).parent = some P)
    (hch : (nodeAt h P).children = some ks) (hkne : ks ≠ [])
    (htxt : (nodeAt h X).token.txt = some s)
    (hXlt : X < h.length) (hnlt : n < h.length) (hPlt : P < h.length)
    (hPn : P ≠ n) (hPX : P ≠ X) (hnX : n ≠ X) :
    ∃ h'', InsertParent h t n =
        some (h'', if t.root = some X
                   then { t with root := some n, current := some n }
                   else { t with current := some n })
      ∧ h''.length = h.length
      ∧ nodeAt h'' P = { nodeAt h P with children := some (ks.set (ks.length - 1) n) }
      ∧ nodeAt h'' n
          = { nodeAt h n with
              children := some (kidsOf h n ++ [X]), parent := some P }
      ∧ nodeAt h'' X = { nodeAt h X with parent := some n }
      ∧ (∀ b, b ≠ P → b ≠ n → b ≠ X → nodeAt h'' b = nodeAt h b) := by
  obtain ⟨h1, hstep, hlen1, hP1, hn1, hfr1⟩ :=
    insertShiftSlot_parent_facts hpar hch hkne hPlt hnlt hPn
  have hXP : X ≠ P := Ne.symm hPX
  have hXn : X ≠ n := Ne.symm hnX
  have hX1 : nodeAt h1 X = nodeAt h X := hfr1 X hXP hXn
  have htxt1 : (nodeAt h1 X).token.txt = some s := by rw [hX1]; exact htxt
  obtain ⟨h2, hadd, hlen2, hcur2, hc2, hfr2⟩ :=
    @AddChild_facts h1 { t with current := some n } X n s
      rfl htxt1 (by rw [hlen1]; exact hXlt) (by rw [hlen1]; exact hnlt) hXn
  have hkid1n : kidsOf h1 n = kidsOf h n := by simp [kidsOf, hn1]
  have hn2 : nodeAt h2 n
      = { nodeAt h n with
          children := some (kidsOf h n ++ [X]), parent := some P } := by
    rw [hcur2, hkid1n, hn1]
  have hX2 : nodeAt h2 X = { nodeAt h X with parent := some n } := by
    rw [hc2, hX1]
  have hP2 : nodeAt h2 P = { nodeAt h P with children := some (ks.set (ks.length - 1) n) } := by
    rw [hfr2 P hPn hPX, hP1]
  have hfr12 : ∀ b, b ≠ P → b ≠ n → b ≠ X → nodeAt h2 b = nodeAt h b := by
    intro b hbP hbn hbX
    rw [hfr2 b hbn hbX, hfr1 b hbP hbn]
  have hlen2' : h2.length = h.length := by rw [hlen2, hlen1]
  have hX2lt : X < h2.length := by rw [hlen2']; exact hXlt
  have hrun : InsertParent h t n =
      some (setNode h2 X { nodeAt h2 X with parent := some n },
            if t.root = some X
            then { t with root := some n, current := some n }
            else { t with current := some n }) := by
    simp only [InsertParent, hcur, hstep, hadd, Parent,
      nodeAt_setNode_self _ hX2lt]
  refine ⟨_, hrun, ?_, ?_, ?_, ?_, ?_⟩
  · simp [length_setNode, hlen2']
  · rw [nodeAt_setNode_ne _ hPX, hP2]
  · rw [nodeAt_setNode_ne _ hnX, hn2]
  · rw [nodeAt_setNode_self _ hX2lt, hX2]
  · intro b hbP hbn hbX
    rw [nodeAt_setNode_ne _ hbX, hfr12 b hbP hbn hbX]

/-- Semantic description of `InsertParent` when the current node `X` is the
root (NULL parent): no slot is overwritten and `n`'s parent stays what it
was; `n` gains `X` at the end of its children, `X` points at `n`, the
cursor ends on `n`, the root becomes `n` when it was `X`, and every other
record is untouched. -/
theorem InsertParent_root_facts {h : Heap} {t : Tree} {n X : Nat} {s : String}
    (hcur : t.current = some X) (hpar : (nodeAt h X).parent = none)
    (htxt : (nodeAt h X).token.txt = some s)
    (hXlt : X < h.length) (hnlt : n < h.length) (hnX : n ≠ X) :
    ∃ h'', InsertParent h t n =
        some (h'', if t.root = some X
                   then { t with root := some n, current := some n }
                   else { t with current := some n })
      ∧ h''.length = h.length
      ∧ nodeAt h'' n = { nodeAt h n with children := some (kidsOf h n ++ [X]) }
      ∧ nodeAt h'' X = { nodeAt h X with parent := some n }
      ∧ (∀ b, b ≠ n → b ≠ X → nodeAt h'' b = nodeAt h b) := by
  have hstep := @insertShiftSlot_root_facts h X n hpar
  have hXn : X ≠ n := Ne.symm hnX
  obtain ⟨h2, hadd, hlen2, hcur2, hc2, hfr2⟩ :=
    @AddChild_facts h { t with current := some n } X n s
      rfl htxt hXlt hnlt hXn
  have hX2 : nodeAt h2 X = { nodeAt h X with parent := some n } := hc2
  have hX2lt : X < h2.length := by rw [hlen2]; exact hXlt
  have hrun : InsertParent h t n =
      some (setNode h2 X { nodeAt h2 X with parent := some n },
            if t.root = some X
            then { t with root := some n, current := some n }
            else { t with current := some n }) := by
    simp only [InsertParent, hcur, hstep, hadd, Parent,
      nodeAt_setNode_self _ hX2lt]
  refine ⟨_, hrun, ?_, ?_, ?_, ?_⟩
  · simp [length_setNode, hlen2]
  · rw [nodeAt_setNode_ne _ hnX, hcur2]
  · rw [nodeAt_setNode_self _ hX2lt, hX2]
  · intro b hbn hbX
    rw [nodeAt_setNode_ne _ hbX, hfr2 b hbn hbX]

/-- Invariant of the splice loop of `AppendTree`, for distinct cursors:
starting at index `i` with enough fuel, the loop terminates, appends the
remaining children of `sc` (in order) to `fc`'s children, stamps their
parent references to `fc`, and touches nothing else: children arrays other
than `fc`'s are untouched, all tokens are untouched, and the only parent
references that change are overwritten with `fc` - references of nodes
outside the spliced children and outside `fc`'s original children are
untouched. -/
theorem AppendLoop_facts {sc fc : Nat} {ks : List Nat}
    (hscfc : sc ≠ fc) (hfcks : fc ∉ ks) :
    ∀ (fuel i : Nat) (h : Heap) (first : Tree),
      first.current = some fc →
      fc < h.length → sc < h.length →
      (nodeAt h sc).children = some ks →
      (∀ c ∈ ks, c < h.length) →
      (∀ c ∈ ks, (nodeAt h c).token.txt.isSome) →
      i ≤ (kidsOf h fc).length →
      ks.length - i + 1 ≤ fuel →
      ∃ h', AppendLoop h first sc i fuel = some (h', first)
        ∧ h'.length = h.length
        ∧ kidsOf h' fc = kidsOf h fc ++ ks.drop i
        ∧ (∀ c ∈ ks.drop i, (nodeAt h' c).parent = some fc)
        ∧ (∀ b, b ≠ fc → (nodeAt h' b).children = (nodeAt h b).children)
        ∧ (∀ b, (nodeAt h' b).token = (nodeAt h b).token)
        ∧ (∀ b, (nodeAt h' b).parent = (nodeAt h b).parent ∨ (nodeAt h' b).parent = some fc)
        ∧ (∀ b, b ∉ ks → b ∉ kidsOf h fc → (nodeAt h' b).parent = (nodeAt h b).parent) := by
  intro fuel
  induction fuel with
  | zero => intro i h first hcur hfclt hsclt hsc hlt htxt hile hfuel; omega
  | succ f ih =>
    intro i h first hcur hfclt hsclt hsc hlt htxt hile hfuel
    by_cases hguard : i < ks.length
    · -- one more iteration
      have hkssc : kidsOf h sc = ks := by rw [kidsOf, hsc]; rfl
      have hgc : GetChild h sc i = ks[i] := by
        simp [GetChild, hkssc, List.getD_eq_getElem?_getD, List.getElem?_eq_getElem hguard]
      have hcmem : ks[i] ∈ ks := List.getElem_mem hguard
      have hcfc : ks[i] ≠ fc := fun hc => hfcks (hc ▸ hcmem)
      obtain ⟨s, hs⟩ : ∃ s, (nodeAt h ks[i]).token.txt = some s :=
        Option.isSome_iff_exists.mp (htxt _ hcmem)
      obtain ⟨h1, hadd, hlen1, hfc1, hc1, hfr1⟩ :=
        AddChild_facts hcur hs (hlt _ hcmem) hfclt hcfc
      have hc1par : (nodeAt h1 ks[i]).parent = some fc := by rw [hc1]
      have hfc1ch : (nodeAt h1 fc).children = some (kidsOf h fc ++ [ks[i]]) := by
        rw [hfc1]
      have hch1 : ∀ b, (nodeAt h1 b).children = (nodeAt h b).children ∨ b = fc := by
        intro b
        by_cases hbfc : b = fc
        · exact Or.inr hbfc
        · by_cases hbc : b = ks[i]
          · subst hbc; rw [hc1]
            exact Or.inl rfl
          · rw [hfr1 b hbfc hbc]
            exact Or.inl rfl
      have htok1 : ∀ b, (nodeAt h1 b).token = (nodeAt h b).token := by
        intro b
        by_cases hbfc : b = fc
        · subst hbfc; rw [hfc1]
        · by_cases hbc : b = ks[i]
          · subst hbc; rw [hc1]
          · rw [hfr1 b hbfc hbc]
      have ht2 : ({ first with current := some fc } : Tree) = first := by
        cases first with
        | mk r cur sz => cases hcur; rfl
      have hiota : i < (kidsOf h fc ++ [ks[i]]).length := by
        rw [List.length_append]; simp; omega
      -- the heap after the parent re-stamp of GetChild(first->current, i)
      set target := (kidsOf h fc ++ [ks[i]]).getD i 0 with htargetdef
      have htargetmem : target ∈ kidsOf h fc ∨ target = ks[i] := by
        rw [htargetdef]
        by_cases hti : i < (kidsOf h fc).length
        · left
          rw [List.getD_eq_getElem?_getD, List.getElem?_append_left hti,
            List.getElem?_eq_getElem hti]
          exact List.getElem_mem hti
        · right
          have : i = (kidsOf h fc).length := by omega
          subst this
          rw [List.getD_eq_getElem?_getD, List.getElem?_concat_length]
          rfl
      set h2 := setNode h1 target { nodeAt h1 target with parent := some fc } with hh2def
      have hch2 : ∀ b, (nodeAt h2 b).children = (nodeAt h1 b).children := by
        intro b
        rw [hh2def]
        by_cases hbt : b = target
        · subst hbt
          by_cases hblt : target < h1.length
          · rw [nodeAt_setNode_self _ hblt]
          · rw [setNode, List.set_eq_of_length_le (by omega)]
        · rw [nodeAt_setNode_ne _ hbt]
      have htok2 : ∀ b, (nodeAt h2 b).token = (nodeAt h1 b).token := by
        intro b
        rw [hh2def]
        by_cases hbt : b = target
        · subst hbt
          by_cases hblt : target < h1.length
          · rw [nodeAt_setNode_self _ hblt]
          · rw [setNode, List.set_eq_of_length_le (by omega)]
        · rw [nodeAt_setNode_ne _ hbt]
      have hpar2 : ∀ b, (nodeAt h2 b).parent = (nodeAt h1 b).parent ∨
          (nodeAt h2 b).parent = some fc := by
        intro b
        rw [hh2def]
        by_cases hbt : b = target
        · subst hbt
          by_cases hblt : target < h1.length
          · rw [nodeAt_setNode_self _ hblt]; right; rfl
          · rw [setNode, List.set_eq_of_length_le (by omega)]; left; rfl
        · rw [nodeAt_setNode_ne _ hbt]; left; rfl
      have hpar2' : ∀ b, b ≠ target → (nodeAt h2 b).parent = (nodeAt h1 b).parent := by
        intro b hbt
        rw [hh2def, nodeAt_setNode_ne _ hbt]
      have hlen2 : h2.length = h.length := by
        rw [hh2def, length_setNode, hlen1]
      -- the loop equation for this iteration
      have hstep : AppendLoop h first sc i (f + 1) = AppendLoop h2 first sc (i + 1) f := by
        simp only [AppendLoop, hsc, if_pos hguard, hgc, hadd, Parent, hc1par,
          hfc1ch, if_pos hiota, ht2, hcur]
      -- hypotheses for the tail of the loop
      have hsc2 : (nodeAt h2 sc).children = some ks := by
        rw [hch2 sc]
        rcases hch1 sc with hc | hc
        · rw [hc, hsc]
        · exact absurd hc hscfc
      have hfc2ch : (nodeAt h2 fc).children = some (kidsOf h fc ++ [ks[i]]) := by
        rw [hch2 fc, hfc1ch]
      have hkid2fc : kidsOf h2 fc = kidsOf h fc ++ [ks[i]] := by
        rw [kidsOf, hfc2ch]; rfl
      obtain ⟨h', hloop, hlen', hkid', hpar', hch', htok', hdisj', hfix'⟩ :=
        ih (i + 1) h2 first hcur (by omega) (by omega) hsc2
          (fun c hc => by rw [hlen2]; exact hlt c hc)
          (fun c hc => by
            have := htxt c hc
            rw [Option.isSome_iff_exists] at this ⊢
            obtain ⟨sx, hsx⟩ := this
            refine ⟨sx, ?_⟩
            rw [htok2 c, htok1 c]
            exact hsx)
          (by rw [hkid2fc, List.length_append]; simp; omega)
          (by omega)
      refine ⟨h', by rw [hstep]; exact hloop, by rw [hlen', hlen2], ?_, ?_, ?_, ?_, ?_, ?_⟩
      · rw [hkid', hkid2fc, List.drop_eq_getElem_cons hguard]
        simp
      · intro c hc
        rw [List.drop_eq_getElem_cons hguard] at hc
        rcases List.mem_cons.mp hc with hc | hc
        · subst hc
          rcases hdisj' ks[i] with hd | hd
          · rw [hd]
            by_cases hct : ks[i] = target
            · have htlt : target < h1.length := by
                rw [hlen1, ← hct]
                exact hlt _ hcmem
              rw [hh2def]
              conv_lhs => rw [hct]
              rw [nodeAt_setNode_self _ htlt]
            · rw [hpar2' ks[i] hct, hc1par]
          · exact hd
        · exact hpar' c hc
      · intro b hbfc
        rw [hch' b hbfc, hch2 b]
        rcases hch1 b with hc | hc
        · exact hc
        · exact absurd hc hbfc
      · intro b
        rw [htok' b, htok2 b, htok1 b]
      · intro b
        rcases hdisj' b with hd | hd
        · rcases hpar2 b with hp | hp
          · rcases (show (nodeAt h1 b).parent = (nodeAt h b).parent ∨
                (nodeAt h1 b).parent = some fc by
                by_cases hbfc : b = fc
                · subst hbfc; rw [hfc1]; left; rfl
                · by_cases hbc : b = ks[i]
                  · subst hbc; rw [hc1]; right; rfl
                  · rw [hfr1 b hbfc hbc]; left; rfl) with hq | hq
            · left; rw [hd, hp, hq]
            · right; rw [hd, hp, hq]
          · right; rw [hd, hp]
        · right; exact hd
      · intro b hbks hbfck
        have hbc : b ≠ ks[i] := fun hc => hbks (hc ▸ hcmem)
        have hbt : b ≠ target := by
          rcases htargetmem with ht | ht
          · exact fun hc => hbfck (hc ▸ ht)
          · rw [ht]; exact hbc
        have hbfc2 : b ∉ kidsOf h2 fc := by
          rw [hkid2fc]
          intro hmem
          rcases List.mem_append.mp hmem with hm | hm
          · exact hbfck hm
          · simp at hm
            exact hbc hm
        rw [hfix' b hbks hbfc2, hpar2' b hbt]
        by_cases hbfc : b = fc
        · subst hbfc; rw [hfc1]
        · rw [hfr1 b hbfc hbc]
    · -- the loop bound is reached: exit
      have hdrop : ks.drop i = [] := List.drop_eq_nil_of_le (by omega)
      refine ⟨h, ?_, rfl, by rw [hdrop, List.append_nil], ?_, ?_, ?_, ?_, ?_⟩
      · simp only [AppendLoop, hsc, if_neg hguard]
      · intro c hc; rw [hdrop] at hc; cases hc
      · intro b _; rfl
      · intro b; rfl
      · intro b; left; rfl
      · intro b _ _; rfl

/-- Writing a record that only changes the parent field leaves every
children field of the heap unchanged. -/
theorem children_setNode_parent {h : Heap} {a b : Nat} {p : Option Nat} :
    (nodeAt (setNode h a { nodeAt h a with parent := p }) b).children
      = (nodeAt h b).children := by
  by_cases hab : b = a
  · subst hab
    by_cases hlt : b < h.length
    · rw [nodeAt_setNode_self _ hlt]
    · rw [setNode, List.set_eq_of_length_le (by omega)]
  · rw [nodeAt_setNode_ne _ hab]

/-- Writing a record that only changes the parent field leaves every token
of the heap unchanged. -/
theorem token_setNode_parent {h : Heap} {a b : Nat} {p : Option Nat} :
    (nodeAt (setNode h a { nodeAt h a with parent := p }) b).token
      = (nodeAt h b).token := by
  by_cases hab : b = a
  · subst hab
    by_cases hlt : b < h.length
    · rw [nodeAt_setNode_self _ hlt]
    · rw [setNode, List.set_eq_of_length_le (by omega)]
  · rw [nodeAt_setNode_ne _ hab]

/-- Semantic description of a successful `AppendTree` with distinct
cursors: the first cursor node gains all children of the second cursor
node, in order; each gains a parent reference to the first cursor; the
second tree's cursor is redirected onto the first's; and nothing else
changes apart from parent re-stamps that write the same `fc` value. -/
theorem AppendTree_facts {h : Heap} {first second : Tree} {fc sc : Nat}
    {ks : List Nat} {fuel : Nat}
    (hfcur : first.current = some fc) (hscur : second.current = some sc)
    (hscfc : sc ≠ fc) (hfclt : fc < h.length) (hsclt : sc < h.length)
    (hsc : (nodeAt h sc).children = some ks)
    (hlt : ∀ c ∈ ks, c < h.length)
    (htxt : ∀ c ∈ ks, (nodeAt h c).token.txt.isSome)
    (hfcks : fc ∉ ks)
    (hfuel : ks.length + 1 ≤ fuel) :
    ∃ h', AppendTree h first second fuel
        = some (h', first, { second with current := some fc })
      ∧ h'.length = h.length
      ∧ kidsOf h' fc = kidsOf h fc ++ ks
      ∧ (∀ c ∈ ks, (nodeAt h' c).parent = some fc)
      ∧ (∀ b, b ≠ fc → (nodeAt h' b).children = (nodeAt h b).children)
      ∧ (∀ b, (nodeAt h' b).token = (nodeAt h b).token)
      ∧ (∀ b, (nodeAt h' b).parent = (nodeAt h b).parent ∨ (nodeAt h' b).parent = some fc)
      ∧ (∀ b, b ∉ ks → b ∉ kidsOf h fc → (nodeAt h' b).parent = (nodeAt h b).parent) := by
  obtain ⟨h', hloop, hlen, hkid, hpar, hch, htok', hdisj, hfix⟩ :=
    AppendLoop_facts hscfc hfcks fuel 0 h first hfcur hfclt hsclt hsc hlt htxt
      (by omega) (by omega)
  refine ⟨h', ?_, hlen, by simpa using hkid, fun c hc => hpar c (by simpa using hc),
    hch, htok', hdisj, hfix⟩
  simp only [AppendTree, hscur, hsc, hloop, hfcur]

/-- C3 (amended): when the two cursors are distinct nodes, AppendTree moves
the k children of `second.current` onto `first.current`, appended in their
original order, each with its parent reference set to `first.current`, and
afterwards `second.current` aliases `first.current`.  (When the cursors
alias the same node the loop re-reads the growing child count and never
finishes; see the counterexample.) -/
theorem C3_appendtree_conservation :
    ∀ (h : Heap) (first second : Tree) (fuel : Nat) (fc sc : Nat) (ks : List Nat)
      (h' : Heap) (first' second' : Tree),
      first.current = some fc → second.current = some sc → sc ≠ fc →
      fc < h.length → sc < h.length →
      (nodeAt h sc).children = some ks →
      (∀ c ∈ ks, c < h.length) → (∀ c ∈ ks, (nodeAt h c).token.txt.isSome) →
      fc ∉ ks → ks.length + 1 ≤ fuel →
      AppendTree h first second fuel = some (h', first', second') →
      kidsOf h' fc = kidsOf h fc ++ ks
      ∧ (∀ c ∈ ks, (nodeAt h' c).parent = some fc)
      ∧ first'.current = some fc
      ∧ second'.current = some fc := by
  intro h first second fuel fc sc ks h' first' second'
    hfcur hscur hscfc hfclt hsclt hsc hlt htxt hfcks hfuel hins
  obtain ⟨h'', hrun, hlen, hkid, hpar, _⟩ :=
    AppendTree_facts hfcur hscur hscfc hfclt hsclt hsc hlt htxt hfcks hfuel
  rw [hins] at hrun
  obtain ⟨hh, hf, hs⟩ : h' = h'' ∧ first' = first
      ∧ second' = { second with current := some fc } := by
    cases hrun with
    | refl => exact ⟨rfl, rfl, rfl⟩
  subst hh hf hs
  exact ⟨hkid, hpar, hfcur, rfl⟩

/-- A concrete pair of disjoint trees for the C3 witness. -/
def hC3W : Heap :=
  [{ token := nameTok "F", children := none, parent := none, id := 0 },
   { token := nameTok "S", children := some [2], parent := none, id := 1 },
   { token := nameTok "d", children := none, parent := some 1, id := 2 }]

/-- Witness for C3 at a concrete pair of trees. -/
theorem C3_witness :
    ∃ h' first' second',
      AppendTree hC3W { root := some 0, current := some 0, size := 1 }
        { root := some 1, current := some 1, size := 2 } 2
        = some (h', first', second')
      ∧ kidsOf h' 0 = kidsOf hC3W 0 ++ [2]
      ∧ (nodeAt h' 2).parent = some 0
      ∧ first'.current = some 0
      ∧ second'.current = some 0 := by
  have heq : AppendTree hC3W { root := some 0, current := some 0, size := 1 }
      { root := some 1, current := some 1, size := 2 } 2
      = some ([{ token := nameTok "F", children := some [2], parent := none, id := 0 },
               { token := nameTok "S", children := some [2], parent := none, id := 1 },
               { token := nameTok "d", children := none, parent := some 0, id := 2 }],
              { root := some 0, current := some 0, size := 1 },
              { root := some 1, current := some 0, size := 2 }) := by rfl
  refine ⟨_, _, _, heq, ?_⟩
  have := C3_appendtree_conservation hC3W
    { root := some 0, current := some 0, size := 1 }
    { root := some 1, current := some 1, size := 2 } 2 0 1 [2] _ _ _
    rfl rfl (by decide) (by decide) (by decide) rfl (by decide) (by decide)
    (by decide) (by decide) heq
  exact ⟨this.1, this.2.1 2 (by decide), this.2.2.1, this.2.2.2⟩

/-- When the two cursors alias the same node with at least one more child
to copy, every iteration of the splice loop appends one more child to the
very array whose re-read size bounds the loop: the loop never exits, which
in the fuel model means `none` for every fuel. -/
theorem AppendLoop_alias_none :
    ∀ (fuel : Nat) (h : Heap) (t : Tree) (sc i : Nat) (ks : List Nat),
      t.current = some sc → sc < h.length →
      (nodeAt h sc).children = some ks → i < ks.length →
      (∀ c ∈ ks, c < h.length ∧ (nodeAt h c).token.txt.isSome ∧ c ≠ sc) →
      AppendLoop h t sc i fuel = none := by
  intro fuel
  induction fuel with
  | zero => intro h t sc i ks _ _ _ _ _; rfl
  | succ f ih =>
    intro h t sc i ks hcur hsclt hsc hguard hks
    have hkssc : kidsOf h sc = ks := by rw [kidsOf, hsc]; rfl
    have hgc : GetChild h sc i = ks[i] := by
      simp [GetChild, hkssc, List.getD_eq_getElem?_getD, List.getElem?_eq_getElem hguard]
    have hcmem : ks[i] ∈ ks := List.getElem_mem hguard
    obtain ⟨hclt, hctxt, hcsc⟩ := hks _ hcmem
    obtain ⟨s, hs⟩ := Option.isSome_iff_exists.mp hctxt
    obtain ⟨h1, hadd, hlen1, hsc1, hc1, hfr1⟩ := AddChild_facts hcur hs hclt hsclt hcsc
    have hc1par : (nodeAt h1 ks[i]).parent = some sc := by rw [hc1]
    have hsc1ch : (nodeAt h1 sc).children = some (ks ++ [ks[i]]) := by
      rw [hsc1]
      simp [hkssc]
    have ht2 : ({ t with current := some sc } : Tree) = t := by
      cases t with
      | mk r cur sz => cases hcur; rfl
    have hiota : i < (ks ++ [ks[i]]).length := by
      rw [List.length_append]; simp; omega
    have hstep : AppendLoop h t sc i (f + 1) =
        AppendLoop (setNode h1 ((ks ++ [ks[i]]).getD i 0)
          { nodeAt h1 ((ks ++ [ks[i]]).getD i 0) with parent := some sc }) t sc (i + 1) f := by
      simp only [AppendLoop, hsc, if_pos hguard, hgc, hadd, Parent, hc1par,
        hsc1ch, if_pos hiota, ht2, hcur]
    rw [hstep]
    have hch1 : ∀ b, (nodeAt h1 b).children = (nodeAt h b).children ∨ b = sc := by
      intro b
      by_cases hbsc : b = sc
      · exact Or.inr hbsc
      · by_cases hbc : b = ks[i]
        · subst hbc; rw [hc1]; exact Or.inl rfl
        · rw [hfr1 b hbsc hbc]; exact Or.inl rfl
    have htok1 : ∀ b, (nodeAt h1 b).token = (nodeAt h b).token := by
      intro b
      by_cases hbsc : b = sc
      · subst hbsc; rw [hsc1]
      · by_cases hbc : b = ks[i]
        · subst hbc; rw [hc1]
        · rw [hfr1 b hbsc hbc]
    refine ih _ t sc (i + 1) (ks ++ [ks[i]]) hcur ?_ ?_ ?_ ?_
    · rw [length_setNode, hlen1]; exact hsclt
    · rw [children_setNode_parent]
      exact hsc1ch
    · rw [List.length_append]; simp; omega
    · intro c hc
      rcases List.mem_append.mp hc with hm | hm
      · obtain ⟨h1lt, h1txt, h1sc⟩ := hks c hm
        refine ⟨by rw [length_setNode, hlen1]; exact h1lt, ?_, h1sc⟩
        rw [Option.isSome_iff_exists] at h1txt ⊢
        obtain ⟨sx, hsx⟩ := h1txt
        exact ⟨sx, by rw [token_setNode_parent, htok1 c, hsx]⟩
      · simp at hm
        subst hm
        refine ⟨by rw [length_setNode, hlen1]; exact hclt, ?_, hcsc⟩
        rw [Option.isSome_iff_exists]
        exact ⟨s, by rw [token_setNode_parent, htok1 ks[i], hs]⟩

/-! ### C2 - InsertParent correctness -/

/-- C2 counterexample is stated further below with the reachable states;
this is the positive (amended) statement.

C2 (amended): InsertParent as specified, PROVIDED the current node X is
the last child of its parent (the code always overwrites the last slot).
Then: n occupies X's old (= last) slot of the parent's children (or the
root is swapped to n when X was the root), X is n's sole new child with
its parent reference on n, the subtree beneath X is untouched (X's own
children and every node other than the three records involved), and the
cursor ends on n. -/
theorem C2_insertparent_correctness :
    (∀ (h : Heap) (t : Tree) (n X P : Nat) (s : String) (h' : Heap) (t' : Tree),
       t.current = some X →
       (nodeAt h X).parent = some P →
       (kidsOf h P).getLast? = some X →
       (nodeAt h X).token.txt = some s →
       X < h.length → n < h.length → P < h.length →
       P ≠ n → P ≠ X → n ≠ X →
       InsertParent h t n = some (h', t') →
       kidsOf h' P = (kidsOf h P).dropLast ++ [n]
       ∧ (nodeAt h' n).parent = some P
       ∧ (nodeAt h' n).children = some (kidsOf h n ++ [X])
       ∧ (nodeAt h' X).parent = some n
       ∧ (nodeAt h' X).children = (nodeAt h X).children
       ∧ (∀ b, b ≠ P → b ≠ n → b ≠ X → nodeAt h' b = nodeAt h b)
       ∧ t'.current = some n
       ∧ t'.root = (if t.root = some X then some n else t.root))
    ∧ (∀ (h : Heap) (t : Tree) (n X : Nat) (s : String) (h' : Heap) (t' : Tree),
       t.current = some X →
       (nodeAt h X).parent = none →
       (nodeAt h X).token.txt = some s →
       X < h.length → n < h.length → n ≠ X →
       InsertParent h t n = some (h', t') →
       (nodeAt h' n).children = some (kidsOf h n ++ [X])
       ∧ (nodeAt h' X).parent = some n
       ∧ (nodeAt h' X).children = (nodeAt h X).children
       ∧ (∀ b, b ≠ n → b ≠ X → nodeAt h' b = nodeAt h b)
       ∧ t'.current = some n
       ∧ t'.root = (if t.root = some X then some n else t.root)) := by
  constructor
  · intro h t n X P s h' t' hcur hpar hlast htxt hXlt hnlt hPlt hPn hPX hnX hins
    obtain ⟨ks, hch⟩ : ∃ ks, (nodeAt h P).children = some ks := by
      cases hc : (nodeAt h P).children with
      | none => rw [kidsOf, hc] at hlast; simp at hlast
      | some ks => exact ⟨ks, rfl⟩
    have hkid : kidsOf h P = ks := by rw [kidsOf, hch]; rfl
    have hkne : ks ≠ [] := by
      intro hk
      rw [hkid, hk] at hlast
      simp at hlast
    obtain ⟨h'', hrun, hlen, hP, hn, hX, hfr⟩ :=
      InsertParent_parent_facts hcur hpar hch hkne htxt hXlt hnlt hPlt hPn hPX hnX
    rw [hins] at hrun
    obtain ⟨hh, ht⟩ : h' = h'' ∧ t' = (if t.root = some X
        then { t with root := some n, current := some n }
        else { t with current := some n }) := by
      cases hrun with
      | refl => exact ⟨rfl, rfl⟩
    subst hh ht
    refine ⟨?_, ?_, ?_, ?_, ?_, hfr, ?_, ?_⟩
    · rw [kidsOf, hP, hkid]
      simp [set_last_eq_dropLast ks n hkne]
    · rw [hn]
    · rw [hn]
    · rw [hX]
    · rw [hX]
    · by_cases hr : t.root = some X <;> simp [hr]
    · by_cases hr : t.root = some X <;> simp [hr]
  · intro h t n X s h' t' hcur hpar htxt hXlt hnlt hnX hins
    obtain ⟨h'', hrun, hlen, hn, hX, hfr⟩ :=
      InsertParent_root_facts hcur hpar htxt hXlt hnlt hnX
    rw [hins] at hrun
    obtain ⟨hh, ht⟩ : h' = h'' ∧ t' = (if t.root = some X
        then { t with root := some n, current := some n }
        else { t with current := some n }) := by
      cases hrun with
      | refl => exact ⟨rfl, rfl⟩
    subst hh ht
    refine ⟨?_, ?_, ?_, hfr, ?_, ?_⟩
    · rw [hn]
    · rw [hX]
    · rw [hX]
    · by_cases hr : t.root = some X <;> simp [hr]
    · by_cases hr : t.root = some X <;> simp [hr]

/-! ### Concrete states

States built by running the operations from empty trees; they witness that
the violation states used against the symmetry claims are reachable with
the repository's own API. -/

/-- Build two trees and splice the second into the first: afterwards the
two cursors alias the same node (address 0), which has one child. -/
def spliceState : Option (Heap × Tree × Tree) := do
  let (h, t1, a0) := CreateNode [] emptyTree (nameTok "A")
  let (h, t1, _) ← AddChild h (some t1) (some a0)
  let (h, t2, r2) := CreateNode h emptyTree (nameTok "B")
  let (h, t2, _) ← AddChild h (some t2) (some r2)
  let (h, t2, d) := CreateNode h t2 (nameTok "C")
  let (h, t2, _) ← AddChild h (some t2) (some d)
  let (h, t2x, m) := CreateNode h t2 (nameTok "M")
  let (h, t2) ← InsertParent h t2x m
  AppendTree h t1 t2 10

/-- The heap of `spliceState`. -/
def hSplice : Heap :=
  [{ token := nameTok "A", children := some [2], parent := none, id := 0 },
   { token := nameTok "B", children := some [3], parent := none, id := 1 },
   { token := nameTok "C", children := none, parent := some 0, id := 2 },
   { token := nameTok "M", children := some [2], parent := some 1, id := 3 }]

/-- The first tree of `spliceState`. -/
def t1Splice : Tree := { root := some 0, current := some 0, size := 1 }

/-- The second tree of `spliceState`; its cursor aliases the first's. -/
def t2Splice : Tree := { root := some 1, current := some 0, size := 3 }

theorem spliceState_eq : spliceState = some (hSplice, t1Splice, t2Splice) := by
  rfl

/-- Continue from `spliceState`: grow the shared node to three children
through the two aliased trees, so that the first tree's cursor (address 4)
is no longer the last child of its parent, and create a detached node
(address 8) for the next InsertParent. -/
def preClobberState : Option (Heap × Tree) := do
  let (h, t1, t2) ← spliceState
  let (h, t1, w) := CreateNode h t1 (nameTok "W")
  let (h, t1, _) ← AddChild h (some t1) (some w)
  let (h, t3, r3) := CreateNode h emptyTree (nameTok "R")
  let (h, t3, _) ← AddChild h (some t3) (some r3)
  let (h, t3, e) := CreateNode h t3 (nameTok "E")
  let (h, t3, _) ← AddChild h (some t3) (some e)
  let (h, t3x, m3) := CreateNode h t3 (nameTok "N")
  let (h, t3) ← InsertParent h t3x m3
  let (h, _, _) ← AppendTree h t2 t3 10
  let (h, t1, _) := CreateNode h t1 (nameTok "P")
  pure (h, t1)

/-- The heap of `preClobberState`: node 0 has children `[2, 4, 6]`, the
first tree's cursor sits on node 4 (the middle child), and node 8 is
detached. -/
def hPre : Heap :=
  [{ token := nameTok "A", children := some [2, 4, 6], parent := none, id := 0 },
   { token := nameTok "B", children := some [3], parent := none, id := 1 },
   { token := nameTok "C", children := none, parent := some 0, id := 2 },
   { token := nameTok "M", children := some [2], parent := some 1, id := 3 },
   { token := nameTok "W", children := none, parent := some 0, id := 4 },
   { token := nameTok "R", children := some [7], parent := none, id := 5 },
   { token := nameTok "E", children := none, parent := some 0, id := 6 },
   { token := nameTok "N", children := some [6], parent := some 5, id := 7 },
   { token := nameTok "P", children := none, parent := none, id := 8 }]

/-- The first tree of `preClobberState`. -/
def t1Pre : Tree := { root := some 0, current := some 4, size := 3 }

theorem preClobberState_eq : preClobberState = some (hPre, t1Pre) := by
  rfl

/-- The heap after `InsertParent hPre t1Pre 8`: the memcpy replaced the
LAST slot (node 6) of node 0's children instead of node 4's slot, so node 4
is still a child of node 0 while its parent reference now points at node
8 - the symmetry invariant is broken. -/
def hClobber : Heap :=
  [{ token := nameTok "A", children := some [2, 4, 8], parent := none, id := 0 },
   { token := nameTok "B", children := some [3], parent := none, id := 1 },
   { token := nameTok "C", children := none, parent := some 0, id := 2 },
   { token := nameTok "M", children := some [2], parent := some 1, id := 3 },
   { token := nameTok "W", children := none, parent := some 8, id := 4 },
   { token := nameTok "R", children := some [7], parent := none, id := 5 },
   { token := nameTok "E", children := none, parent := some 0, id := 6 },
   { token := nameTok "N", children := some [6], parent := some 5, id := 7 },
   { token := nameTok "P", children := some [4], parent := some 0, id := 8 }]

/-- The first tree after the clobbering `InsertParent`. -/
def t1Clobber : Tree := { root := some 0, current := some 8, size := 3 }

theorem clobberState_eq : InsertParent hPre t1Pre 8 = some (hClobber, t1Clobber) := by
  rfl

/-- A small tree for the C2 and C1 witnesses: a root (node 0) whose only -
hence last - child is the cursor (node 1), plus a detached node 2. -/
def hW : Heap :=
  [{ token := nameTok "r", children := some [1], parent := none, id := 0 },
   { token := nameTok "x", children := none, parent := some 0, id := 1 },
   { token := nameTok "p", children := none, parent := none, id := 2 }]

/-- The tree over `hW` with the cursor on node 1. -/
def tW : Tree := { root := some 0, current := some 1, size := 3 }

/-- Witness for C2 at the concrete tree `hW`/`tW`: inserting node 2 as
parent of node 1 (the last child of node 0). -/
theorem C2_witness :
    ∃ h' t', InsertParent hW tW 2 = some (h', t')
      ∧ kidsOf h' 0 = (kidsOf hW 0).dropLast ++ [2]
      ∧ (nodeAt h' 2).parent = some 0
      ∧ (nodeAt h' 2).children = some (kidsOf hW 2 ++ [1])
      ∧ (nodeAt h' 1).parent = some 2
      ∧ t'.current = some 2 := by
  have heq : InsertParent hW tW 2 =
      some ([{ token := nameTok "r", children := some [2], parent := none, id := 0 },
             { token := nameTok "x", children := none, parent := some 2, id := 1 },
             { token := nameTok "p", children := some [1], parent := some 0, id := 2 }],
            { root := some 0, current := some 2, size := 3 }) := by rfl
  have hfacts := C2_insertparent_correctness.1 hW tW 2 1 0 "x" _ _
    rfl rfl rfl rfl (by decide) (by decide) (by decide) (by decide) (by decide)
    (by decide) heq
  exact ⟨_, _, heq, hfacts.1, hfacts.2.1, hfacts.2.2.1, hfacts.2.2.2.1, hfacts.2.2.2.2.2.2.1⟩

/-- C2 counterexample: in the reachable state `preClobberState` the cursor
(node 4) is the middle child of node 0 (slot 1 of `[2, 4, 6]`).  After
`InsertParent` with the fresh node 8, slot 1 still holds node 4 and node 8
sits in the last slot instead: the new parent does NOT occupy X's old
position, so the claim as stated (for every tree) is false. -/
theorem C2_counterexample :
    preClobberState = some (hPre, t1Pre)
    ∧ t1Pre.current = some 4
    ∧ (nodeAt hPre 4).parent = some 0
    ∧ kidsOf hPre 0 = [2, 4, 6]
    ∧ InsertParent hPre t1Pre 8 = some (hClobber, t1Clobber)
    ∧ kidsOf hClobber 0 = [2, 4, 8]
    ∧ (kidsOf hClobber 0).getD 1 0 = 4
    ∧ (kidsOf hClobber 0).getD 1 0 ≠ 8 := by
  exact ⟨preClobberState_eq, rfl, rfl, rfl, clobberState_eq, rfl, rfl, by decide⟩

/-! ### C3 counterexample -/

/-- C3 counterexample: `spliceState` is reachable (its two trees' cursors
alias node 0 after a first AppendTree) and node 0 has k = 1 children, yet a
second AppendTree on this pair never completes - the loop bound re-reads
the very children array it grows - so "first.current gains exactly k new
children" fails: there is no fuel for which the call returns. -/
theorem C3_counterexample :
    spliceState = some (hSplice, t1Splice, t2Splice)
    ∧ t1Splice.current = some 0
    ∧ t2Splice.current = some 0
    ∧ (nodeAt hSplice 0).children = some [2]
    ∧ ¬ ∃ fuel r, AppendTree hSplice t1Splice t2Splice fuel = some r := by
  refine ⟨spliceState_eq, rfl, rfl, rfl, ?_⟩
  rintro ⟨fuel, r, hr⟩
  have hnone := AppendLoop_alias_none fuel hSplice t1Splice 0 0 [2] rfl (by decide)
    rfl (by decide) (by decide)
  have hall : AppendTree hSplice t1Splice t2Splice fuel = none := by
    simp only [AppendTree, show t2Splice.current = some 0 from rfl,
      show (nodeAt hSplice 0).children = some [2] from rfl, hnone]
  rw [hall] at hr
  cases hr

/-! ### C1 - parent-child symmetry -/

/-- AddChild preserves the parent-child symmetry invariant when the
inserted child is fresh (valid and present in no children array) and
distinct from the cursor node. -/
theorem AddChild_preserves_SymInv {h : Heap} {t : Tree} {c : Nat}
    {h' : Heap} {t' : Tree} {r : Nat}
    (hsym : SymInv h) (hfresh : Fresh h c)
    (hcur : ∀ x, t.current = some x → x < h.length ∧ c ≠ x)
    (hadd : AddChild h (some t) (some c) = some (h', t', r)) :
    SymInv h' := by
  cases hc : t.current with
  | none =>
    cases htxt : (nodeAt h c).token.txt with
    | none => simp [AddChild, htxt] at hadd
    | some s =>
      simp only [AddChild, htxt, hc] at hadd
      injection hadd with h1
      injection h1 with h2 h3
      rw [← h2]
      exact hsym
  | some cur =>
    obtain ⟨hcurlt, hccur⟩ := hcur cur hc
    cases htxt : (nodeAt h c).token.txt with
    | none => simp [AddChild, htxt] at hadd
    | some s =>
      obtain ⟨h'', haddeq, hlen, hcurn, hcn, hfr⟩ :=
        AddChild_facts hc htxt hfresh.1 hcurlt hccur
      rw [hadd] at haddeq
      injection haddeq with h1
      injection h1 with h2 h3
      subst h2
      have hkcur : kidsOf h' cur = kidsOf h cur ++ [c] := by
        rw [kidsOf, hcurn]
        rfl
      have hkc : kidsOf h' c = kidsOf h c := by
        rw [kidsOf, hcn]; rfl
      have hkelse : ∀ b, b ≠ cur → b ≠ c → kidsOf h' b = kidsOf h b := by
        intro b h1 h2
        rw [kidsOf, hfr b h1 h2]; rfl
      have hpcur : (nodeAt h' cur).parent = (nodeAt h cur).parent := by
        rw [hcurn]
      have hpc : (nodeAt h' c).parent = some cur := by
        rw [hcn]
      have hpelse : ∀ b, b ≠ cur → b ≠ c →
          (nodeAt h' b).parent = (nodeAt h b).parent := by
        intro b h1 h2
        rw [hfr b h1 h2]
      intro p hp x hx
      rw [List.mem_range, hlen] at hp
      have hpmem : p ∈ List.range h.length := List.mem_range.mpr hp
      by_cases hpcur' : p = cur
      · subst hpcur'
        rw [hkcur] at hx ⊢
        rcases List.mem_append.mp hx with hxk | hxc
        · obtain ⟨hxlt, hxpar, hxcount⟩ := hsym p hpmem x hxk
          have hxc' : x ≠ c := fun hceq => hfresh.2 p hpmem (hceq ▸ hxk)
          have hcount0 : List.count x [c] = 0 := by
            simp [List.count_singleton]
            exact fun hceq => hxc' hceq.symm
          refine ⟨by rw [hlen]; exact hxlt, ?_, ?_⟩
          · by_cases hxcur : x = p
            · subst hxcur; rw [hpcur]; exact hxpar
            · rw [hpelse x hxcur hxc']; exact hxpar
          · rw [List.count_append, hxcount, hcount0]
        · have hxc' : x = c := by simpa using hxc
          subst hxc'
          refine ⟨by rw [hlen]; exact hfresh.1, hpc, ?_⟩
          have hcount0 : List.count x (kidsOf h p) = 0 :=
            List.count_eq_zero.mpr (hfresh.2 p hpmem)
          rw [List.count_append, hcount0, List.count_singleton]
          simp
      · by_cases hpc' : p = c
        · subst hpc'
          rw [hkc] at hx ⊢
          obtain ⟨hxlt, hxpar, hxcount⟩ := hsym p hpmem x hx
          have hxp : x ≠ p := fun hceq => hfresh.2 p hpmem (hceq ▸ hx)
          refine ⟨by rw [hlen]; exact hxlt, ?_, hxcount⟩
          by_cases hxcur : x = cur
          · subst hxcur; rw [hpcur]; exact hxpar
          · rw [hpelse x hxcur hxp]; exact hxpar
        · rw [hkelse p hpcur' hpc'] at hx ⊢
          obtain ⟨hxlt, hxpar, hxcount⟩ := hsym p hpmem x hx
          have hxc' : x ≠ c := fun hceq => hfresh.2 p hpmem (hceq ▸ hx)
          refine ⟨by rw [hlen]; exact hxlt, ?_, hxcount⟩
          by_cases hxcur : x = cur
          · subst hxcur; rw [hpcur]; exact hxpar
          · rw [hpelse x hxcur hxc']; exact hxpar

/-- InsertParent preserves the parent-child symmetry invariant when the
inserted parent node is fresh and the current node X is its parent's LAST
child (or the root).  Without the last-child condition the slot overwrite
hits a sibling and the invariant breaks (see the C1 counterexample). -/
theorem InsertParent_preserves_SymInv {h : Heap} {t : Tree} {n X : Nat} {s : String}
    {h' : Heap} {t' : Tree}
    (hsym : SymInv h) (hcur : t.current = some X) (hXlt : X < h.length)
    (htxt : (nodeAt h X).token.txt = some s)
    (hfresh : Fresh h n) (hnX : n ≠ X)
    (hparcase : (nodeAt h X).parent = none ∨
      ∃ P, (nodeAt h X).parent = some P ∧ P ≠ n ∧ P ≠ X ∧
        (kidsOf h P).getLast? = some X)
    (hins : InsertParent h t n = some (h', t')) :
    SymInv h' := by
  rcases hparcase with hpar | ⟨P, hpar, hPn, hPX, hlast⟩
  · -- X is the root: no slot overwrite
    obtain ⟨h'', hrun, hlen, hn'', hX'', hfr⟩ :=
      InsertParent_root_facts hcur hpar htxt hXlt hfresh.1 hnX
    rw [hins] at hrun
    injection hrun with h1
    injection h1 with h2 h3
    subst h2
    have hXany : ∀ p, p ∈ List.range h.length → X ∉ kidsOf h p := by
      intro p hp hmem
      have := (hsym p hp X hmem).2.1
      rw [hpar] at this
      cases this
    have hparpres : ∀ x, x ≠ n → x ≠ X →
        (nodeAt h' x).parent = (nodeAt h x).parent := by
      intro x hxn hxX
      rw [hfr x hxn hxX]
    have hkn : kidsOf h' n = kidsOf h n ++ [X] := by
      rw [kidsOf, hn'']
      rfl
    have hkidpres : ∀ p, p ≠ n → kidsOf h' p = kidsOf h p := by
      intro p hpn
      by_cases hpX : p = X
      · subst hpX; rw [kidsOf, hX'']; rfl
      · rw [kidsOf, hfr p hpn hpX]; rfl
    intro p hp x hx
    rw [List.mem_range, hlen] at hp
    have hpmem : p ∈ List.range h.length := List.mem_range.mpr hp
    by_cases hpn : p = n
    · subst hpn
      rw [hkn] at hx ⊢
      rcases List.mem_append.mp hx with hxk | hxX
      · obtain ⟨hxlt, hxpar, hxcount⟩ := hsym p hpmem x hxk
        have hxn : x ≠ p := fun hceq => hfresh.2 p hpmem (hceq ▸ hxk)
        have hxX : x ≠ X := fun hceq => hXany p hpmem (hceq ▸ hxk)
        refine ⟨by rw [hlen]; exact hxlt, by rw [hparpres x hxn hxX]; exact hxpar, ?_⟩
        rw [List.count_append, hxcount, List.count_singleton]
        simp [Ne.symm hxX]
      · have hxX : x = X := by simpa using hxX
        subst hxX
        have hX' : (nodeAt h' x).parent = some p := by rw [hX'']
        refine ⟨by rw [hlen]; exact hXlt, hX', ?_⟩
        rw [List.count_append, List.count_eq_zero.mpr (hXany p hpmem),
          List.count_singleton]
        simp
    · rw [hkidpres p hpn] at hx ⊢
      obtain ⟨hxlt, hxpar, hxcount⟩ := hsym p hpmem x hx
      have hxn : x ≠ n := fun hceq => hfresh.2 p hpmem (hceq ▸ hx)
      have hxX : x ≠ X := fun hceq => hXany p hpmem (hceq ▸ hx)
      exact ⟨by rw [hlen]; exact hxlt, by rw [hparpres x hxn hxX]; exact hxpar, hxcount⟩
  · -- X has parent P and is its last child
    have hPlt : P < h.length := by
      by_contra hcon
      rw [kidsOf, nodeAt_of_le (le_of_not_lt hcon)] at hlast
      cases hlast
    obtain ⟨ks, hch⟩ : ∃ ks, (nodeAt h P).children = some ks := by
      cases hc : (nodeAt h P).children with
      | none => rw [kidsOf, hc] at hlast; cases hlast
      | some ks => exact ⟨ks, rfl⟩
    have hkid : kidsOf h P = ks := by rw [kidsOf, hch]; rfl
    rw [hkid] at hlast
    have hkne : ks ≠ [] := by
      intro hk
      rw [hk] at hlast
      cases hlast
    have hgl : ks.getLast hkne = X := by
      rw [List.getLast?_eq_getLast ks hkne] at hlast
      exact Option.some.inj hlast
    have hksdec : ks.dropLast ++ [X] = ks := by
      rw [← hgl]
      exact List.dropLast_append_getLast hkne
    obtain ⟨h'', hrun, hlen, hP'', hn'', hX'', hfr⟩ :=
      InsertParent_parent_facts hcur hpar hch hkne htxt hXlt hfresh.1 hPlt hPn hPX hnX
    rw [hins] at hrun
    injection hrun with h1
    injection h1 with h2 h3
    subst h2
    have hPmem : P ∈ List.range h.length := List.mem_range.mpr hPlt
    have hXmem : X ∈ ks := by rw [← hksdec]; simp
    have hXcount : ks.count X = 1 := by
      have := (hsym P hPmem X (by rw [hkid]; exact hXmem)).2.2
      rwa [hkid] at this
    have hXdrop : X ∉ ks.dropLast := by
      have hc : ks.dropLast.count X = 0 := by
        rw [← hksdec, List.count_append, List.count_singleton] at hXcount
        simp at hXcount
        omega
      exact List.count_eq_zero.mp hc
    have hXkids : ∀ p, p ∈ List.range h.length → p ≠ P → X ∉ kidsOf h p := by
      intro p hp hpP hmem
      have := (hsym p hp X hmem).2.1
      rw [hpar] at this
      injection this with hh
      exact hpP hh.symm
    have hparpres : ∀ x, x ≠ n → x ≠ X →
        (nodeAt h' x).parent = (nodeAt h x).parent := by
      intro x hxn hxX
      by_cases hxP : x = P
      · subst hxP; rw [hP'']
      · rw [hfr x hxP hxn hxX]
    have hkP : kidsOf h' P = ks.dropLast ++ [n] := by
      rw [kidsOf, hP'']
      show ks.set (ks.length - 1) n = ks.dropLast ++ [n]
      exact set_last_eq_dropLast ks n hkne
    have hkn : kidsOf h' n = kidsOf h n ++ [X] := by
      rw [kidsOf, hn'']
      rfl
    have hkidpres : ∀ p, p ≠ P → p ≠ n → kidsOf h' p = kidsOf h p := by
      intro p hpP hpn
      by_cases hpX : p = X
      · subst hpX; rw [kidsOf, hX'']; rfl
      · rw [kidsOf, hfr p hpP hpn hpX]; rfl
    intro p hp x hx
    rw [List.mem_range, hlen] at hp
    have hpmem : p ∈ List.range h.length := List.mem_range.mpr hp
    by_cases hpP : p = P
    · subst hpP
      rw [hkP] at hx ⊢
      rcases List.mem_append.mp hx with hxk | hxn'
      · have hxks : x ∈ ks := List.dropLast_subset ks hxk
        obtain ⟨hxlt, hxpar, hxcount⟩ := hsym p hpmem x (by rw [hkid]; exact hxks)
        have hxn : x ≠ n := fun hceq => hfresh.2 p hpmem (hceq ▸ (hkid ▸ hxks))
        have hxX : x ≠ X := fun hceq => hXdrop (hceq ▸ hxk)
        refine ⟨by rw [hlen]; exact hxlt, by rw [hparpres x hxn hxX]; exact hxpar, ?_⟩
        have hxcount' : ks.count x = 1 := by rwa [hkid] at hxcount
        rw [← hksdec, List.count_append, List.count_singleton] at hxcount'
        rw [List.count_append, List.count_singleton]
        simp [Ne.symm hxX] at hxcount'
        simp [Ne.symm hxn]
        exact hxcount'
      · have hxn' : x = n := by simpa using hxn'
        subst hxn'
        have hn' : (nodeAt h' x).parent = some p := by rw [hn'']
        refine ⟨by rw [hlen]; exact hfresh.1, hn', ?_⟩
        have hndrop : x ∉ ks.dropLast := fun hmem =>
          hfresh.2 p hpmem (hkid ▸ List.dropLast_subset ks hmem)
        rw [List.count_append, List.count_eq_zero.mpr hndrop, List.count_singleton]
        simp
    · by_cases hpn : p = n
      · subst hpn
        rw [hkn] at hx ⊢
        rcases List.mem_append.mp hx with hxk | hxX'
        · obtain ⟨hxlt, hxpar, hxcount⟩ := hsym p hpmem x hxk
          have hxn : x ≠ p := fun hceq => hfresh.2 p hpmem (hceq ▸ hxk)
          have hxX : x ≠ X := fun hceq => hXkids p hpmem hpP (hceq ▸ hxk)
          refine ⟨by rw [hlen]; exact hxlt, by rw [hparpres x hxn hxX]; exact hxpar, ?_⟩
          rw [List.count_append, hxcount, List.count_singleton]
          simp [Ne.symm hxX]
        · have hxX' : x = X := by simpa using hxX'
          subst hxX'
          have hX' : (nodeAt h' x).parent = some p := by rw [hX'']
          refine ⟨by rw [hlen]; exact hXlt, hX', ?_⟩
          rw [List.count_append, List.count_eq_zero.mpr (hXkids p hpmem hpP),
            List.count_singleton]
          simp
      · rw [hkidpres p hpP hpn] at hx ⊢
        obtain ⟨hxlt, hxpar, hxcount⟩ := hsym p hpmem x hx
        have hxn : x ≠ n := fun hceq => hfresh.2 p hpmem (hceq ▸ hx)
        have hxX : x ≠ X := fun hceq => hXkids p hpmem hpP (hceq ▸ hx)
        exact ⟨by rw [hlen]; exact hxlt, by rw [hparpres x hxn hxX]; exact hxpar, hxcount⟩

/-- After a successful AppendTree with distinct cursors, the symmetry
invariant holds everywhere EXCEPT at the stale second cursor: its children
array still lists the moved nodes, whose parent references now point at
the first cursor. -/
theorem AppendTree_SymInvExcept {h : Heap} {first second : Tree} {fc sc : Nat}
    {ks : List Nat} {fuel : Nat} {h' : Heap} {first' second' : Tree}
    (hsym : SymInv h)
    (hfcur : first.current = some fc) (hscur : second.current = some sc)
    (hscfc : sc ≠ fc) (hfclt : fc < h.length) (hsclt : sc < h.length)
    (hsc : (nodeAt h sc).children = some ks)
    (htxt : ∀ c ∈ ks, (nodeAt h c).token.txt.isSome)
    (hfcks : fc ∉ ks)
    (hfuel : ks.length + 1 ≤ fuel)
    (hins : AppendTree h first second fuel = some (h', first', second')) :
    SymInvExcept h' sc := by
  have hscmem : sc ∈ List.range h.length := List.mem_range.mpr hsclt
  have hfcmem : fc ∈ List.range h.length := List.mem_range.mpr hfclt
  have hkssc : kidsOf h sc = ks := by rw [kidsOf, hsc]; rfl
  have hlt : ∀ c ∈ ks, c < h.length := fun c hc =>
    (hsym sc hscmem c (by rw [hkssc]; exact hc)).1
  have hparks : ∀ c ∈ ks, (nodeAt h c).parent = some sc := fun c hc =>
    (hsym sc hscmem c (by rw [hkssc]; exact hc)).2.1
  have hcountks : ∀ c ∈ ks, ks.count c = 1 := fun c hc => by
    have := (hsym sc hscmem c (by rw [hkssc]; exact hc)).2.2
    rwa [hkssc] at this
  obtain ⟨h'', hrun, hlen, hkid, hpar, hch, htok, hdisj, hfix⟩ :=
    AppendTree_facts hfcur hscur hscfc hfclt hsclt hsc hlt htxt hfcks hfuel
  rw [hins] at hrun
  injection hrun with h1
  injection h1 with h2 h3
  subst h2
  have hksfc : ∀ x ∈ ks, x ∉ kidsOf h fc := by
    intro x hx hmem
    have h1 := hparks x hx
    have h2 := (hsym fc hfcmem x hmem).2.1
    rw [h1] at h2
    injection h2 with hh
    exact hscfc hh
  intro p hp hpsc x hx
  rw [List.mem_range, hlen] at hp
  have hpmem : p ∈ List.range h.length := List.mem_range.mpr hp
  by_cases hpfc : p = fc
  · subst hpfc
    rw [hkid] at hx ⊢
    rcases List.mem_append.mp hx with hx0 | hxk
    · obtain ⟨hxlt, hxpar, hxcount⟩ := hsym p hpmem x hx0
      have hxks : x ∉ ks := fun hxk => hksfc x hxk hx0
      refine ⟨by rw [hlen]; exact hxlt, ?_, ?_⟩
      · rcases hdisj x with hq | hq
        · rw [hq]; exact hxpar
        · exact hq
      · rw [List.count_append, hxcount, List.count_eq_zero.mpr hxks]
    · refine ⟨by rw [hlen]; exact hlt x hxk, hpar x hxk, ?_⟩
      rw [List.count_append, List.count_eq_zero.mpr (fun hm => hksfc x hxk hm),
        hcountks x hxk]
  · have hkidp : kidsOf h' p = kidsOf h p := by
      rw [kidsOf, kidsOf, hch p hpfc]
    rw [hkidp] at hx ⊢
    obtain ⟨hxlt, hxpar, hxcount⟩ := hsym p hpmem x hx
    have hxks : x ∉ ks := by
      intro hxk
      have := hparks x hxk
      rw [hxpar] at this
      injection this with hh
      exact hpsc hh
    have hxfc : x ∉ kidsOf h fc := by
      intro hmem
      have := (hsym fc hfcmem x hmem).2.1
      rw [hxpar] at this
      injection this with hh
      exact hpfc hh
    refine ⟨by rw [hlen]; exact hxlt, ?_, hxcount⟩
    rw [hfix x hxks hxfc]
    exact hxpar

/-- C1 (amended): the parent-child symmetry invariant - every node found
in a children array appears there exactly once with its parent reference
on the array's owner - is preserved by AddChild (for a fresh child), and
by InsertParent PROVIDED the current node is its parent's last child (or
the root) and the new parent node is fresh; after AppendTree (distinct
cursors) it holds for every node EXCEPT the second tree's stale cursor,
whose children array still lists the moved nodes.  Without the last-child
proviso, and at the stale cursor, the invariant is false (see the
counterexample). -/
theorem C1_parent_child_symmetry :
    (∀ (h : Heap) (t : Tree) (c : Nat) (h' : Heap) (t' : Tree) (r : Nat),
       SymInv h → Fresh h c →
       (∀ x, t.current = some x → x < h.length ∧ c ≠ x) →
       AddChild h (some t) (some c) = some (h', t', r) → SymInv h')
    ∧ (∀ (h : Heap) (t : Tree) (n X : Nat) (s : String) (h' : Heap) (t' : Tree),
       SymInv h → t.current = some X → X < h.length →
       (nodeAt h X).token.txt = some s →
       Fresh h n → n ≠ X →
       ((nodeAt h X).parent = none ∨
         ∃ P, (nodeAt h X).parent = some P ∧ P ≠ n ∧ P ≠ X ∧
           (kidsOf h P).getLast? = some X) →
       InsertParent h t n = some (h', t') → SymInv h')
    ∧ (∀ (h : Heap) (first second : Tree) (fuel fc sc : Nat) (ks : List Nat)
         (h' : Heap) (first' second' : Tree),
       SymInv h → first.current = some fc → second.current = some sc →
       sc ≠ fc → fc < h.length → sc < h.length →
       (nodeAt h sc).children = some ks →
       (∀ c ∈ ks, (nodeAt h c).token.txt.isSome) → fc ∉ ks →
       ks.length + 1 ≤ fuel →
       AppendTree h first second fuel = some (h', first', second') →
       SymInvExcept h' sc) :=
  ⟨fun _ _ _ _ _ _ hs hf hc ha => AddChild_preserves_SymInv hs hf hc ha,
   fun _ _ _ _ _ _ _ hs hc hX ht hf hn hp hi =>
     InsertParent_preserves_SymInv hs hc hX ht hf hn hp hi,
   fun _ _ _ _ _ _ _ _ _ _ hs h1 h2 h3 h4 h5 h6 h7 h8 h9 h10 =>
     AppendTree_SymInvExcept hs h1 h2 h3 h4 h5 h6 h7 h8 h9 h10⟩

/-- A two-node heap (a one-node tree plus a detached node) for the C1
witness. -/
def hC1W : Heap :=
  [{ token := nameTok "A", children := none, parent := none, id := 0 },
   { token := nameTok "B", children := none, parent := none, id := 1 }]

/-- Witness for C1: concrete runs of all three operations with the
symmetry conclusions evaluated. -/
theorem C1_witness :
    (SymInv hC1W ∧ Fresh hC1W 1
      ∧ ∃ h' t' r, AddChild hC1W (some { root := some 0, current := some 0, size := 2 })
          (some 1) = some (h', t', r) ∧ SymInv h')
    ∧ (SymInv hW ∧ Fresh hW 2
      ∧ ∃ h' t', InsertParent hW tW 2 = some (h', t') ∧ SymInv h')
    ∧ (SymInv hC3W
      ∧ ∃ h' f' s', AppendTree hC3W { root := some 0, current := some 0, size := 1 }
          { root := some 1, current := some 1, size := 2 } 2 = some (h', f', s')
          ∧ SymInvExcept h' 1) := by
  have haddW : AddChild hC1W (some { root := some 0, current := some 0, size := 2 })
      (some 1) =
      some ([{ token := nameTok "A", children := some [1], parent := none, id := 0 },
             { token := nameTok "B", children := none, parent := some 0, id := 1 }],
            { root := some 0, current := some 1, size := 2 }, 1) := by rfl
  have hinsW : InsertParent hW tW 2 =
      some ([{ token := nameTok "r", children := some [2], parent := none, id := 0 },
             { token := nameTok "x", children := none, parent := some 2, id := 1 },
             { token := nameTok "p", children := some [1], parent := some 0, id := 2 }],
            { root := some 0, current := some 2, size := 3 }) := by rfl
  have happW : AppendTree hC3W { root := some 0, current := some 0, size := 1 }
      { root := some 1, current := some 1, size := 2 } 2 =
      some ([{ token := nameTok "F", children := some [2], parent := none, id := 0 },
             { token := nameTok "S", children := some [2], parent := none, id := 1 },
             { token := nameTok "d", children := none, parent := some 0, id := 2 }],
            { root := some 0, current := some 0, size := 1 },
            { root := some 1, current := some 0, size := 2 }) := by rfl
  refine ⟨⟨by decide, by decide, _, _, _, haddW, ?_⟩,
    ⟨by decide, by decide, _, _, hinsW, ?_⟩,
    ⟨by decide, _, _, _, happW, ?_⟩⟩
  · exact C1_parent_child_symmetry.1 hC1W
      { root := some 0, current := some 0, size := 2 } 1 _ _ _
      (by decide) (by decide) (fun x hx => by cases hx; exact ⟨by decide, by decide⟩)
      haddW
  · exact C1_parent_child_symmetry.2.1 hW tW 2 1 "x" _ _
      (by decide) rfl (by decide) rfl (by decide) (by decide)
      (Or.inr ⟨0, rfl, by decide, by decide, by decide⟩) hinsW
  · exact C1_parent_child_symmetry.2.2 hC3W
      { root := some 0, current := some 0, size := 1 }
      { root := some 1, current := some 1, size := 2 } 2 0 1 [2] _ _ _
      (by decide) rfl rfl (by decide) (by decide) (by decide) rfl
      (by decide) (by decide) (by decide) happW

/-- C1 counterexample: both failure modes at reachable states.  (a) After
the AppendTree call that built `spliceState`, node 3 (the second tree's
stale cursor, reachable from its root node 1) still lists node 2 as a
child while node 2's parent reference points at node 0: symmetry is
already broken by an ordinary AppendTree call.  (b) After an InsertParent
call at a reachable state whose cursor (node 4) is not its parent's last
child, node 4 is listed among node 0's children while its parent reference
points at node 8. -/
theorem C1_counterexample :
    (spliceState = some (hSplice, t1Splice, t2Splice)
      ∧ 3 ∈ kidsOf hSplice 1
      ∧ 2 ∈ kidsOf hSplice 3
      ∧ (nodeAt hSplice 2).parent = some 0
      ∧ some 0 ≠ (some 3 : Option Nat)
      ∧ ¬ SymInv hSplice)
    ∧ (preClobberState = some (hPre, t1Pre)
      ∧ InsertParent hPre t1Pre 8 = some (hClobber, t1Clobber)
      ∧ 4 ∈ kidsOf hClobber 0
      ∧ (nodeAt hClobber 4).parent = some 8
      ∧ some 8 ≠ (some 0 : Option Nat)
      ∧ ¬ SymInv hClobber) := by
  exact ⟨⟨spliceState_eq, by decide, by decide, rfl, by decide, by decide⟩,
    ⟨preClobberState_eq, clobberState_eq, by decide, rfl, by decide, by decide⟩⟩

/-! ### C4 - rooting -/

/-- A run in which a later AddChild call does change the root: make node 0
the root, ascend past the root (Parent at the root silently nulls the
cursor), then add node 1. -/
def rootSwapRun : Option Tree := do
  let (h, t, a) := CreateNode [] emptyTree (nameTok "A")
  let (h, t, _) ← AddChild h (some t) (some a)
  let (h, t, b) := CreateNode h t (nameTok "B")
  let t ← Parent h t
  let (_, t, _) ← AddChild h (some t) (some b)
  pure t

/-- C4 counterexample: the first AddChild call of `rootSwapRun` makes node
0 the root, yet after a later AddChild call of the same run the root is
node 1 - a second AddChild call CAN change the root (after the cursor was
moved past the root), so the claim as stated is false. -/
theorem C4_counterexample :
    AddChild [{ token := nameTok "A", children := none, parent := none, id := 0 }]
        (some emptyTree) (some 0) =
      some ([{ token := nameTok "A", children := none, parent := none, id := 0 }],
            { root := some 0, current := some 0, size := 0 }, 0)
    ∧ rootSwapRun = some { root := some 1, current := some 1, size := 2 }
    ∧ some 1 ≠ (some 0 : Option Nat) := by
  refine ⟨by rfl, by rfl, by simp⟩

/-- C4 (amended): on a tree with a NULL current node, AddChild makes the
new node both root and current; any AddChild call made while the current
node is non-NULL leaves the root unchanged.  (The code keys the bootstrap
branch on `current`, not on `root`: if the cursor is moved past the root -
Parent at the root nulls it - a later AddChild re-roots the tree, which is
the counterexample above.) -/
theorem C4_rooting :
    (∀ h t c h' t' r, t.current = none →
       AddChild h (some t) (some c) = some (h', t', r) →
       t'.root = some c ∧ t'.current = some c ∧ h' = h)
    ∧ (∀ h t c cur h' t' r, t.current = some cur →
       AddChild h (some t) (some c) = some (h', t', r) →
       t'.root = t.root) := by
  constructor
  · intro h t c h' t' r hcur hadd
    cases htxt : (nodeAt h c).token.txt with
    | none => simp [AddChild, htxt] at hadd
    | some s =>
      simp only [AddChild, htxt, hcur] at hadd
      obtain ⟨h1, h2, h3⟩ := Prod.mk.injEq .. ▸ (Option.some.injEq .. ▸ hadd)
      cases hadd
      exact ⟨rfl, rfl, rfl⟩
  · intro h t c cur h' t' r hcur hadd
    cases htxt : (nodeAt h c).token.txt with
    | none => simp [AddChild, htxt] at hadd
    | some s =>
      simp only [AddChild, htxt, hcur] at hadd
      cases hadd
      rfl

/-- Witness for C4: a concrete instance of each conjunct. -/
theorem C4_witness :
    (∃ h' t' r, AddChild [{ token := nameTok "A", children := none, parent := none, id := 0 }]
        (some emptyTree) (some 0) = some (h', t', r)
        ∧ t'.root = some 0 ∧ t'.current = some 0)
    ∧ (∃ h' t' r, AddChild hSplice (some t1Splice) (some 2) = some (h', t', r)
        ∧ t'.root = t1Splice.root) := by
  have hadd1 : AddChild [{ token := nameTok "A", children := none, parent := none, id := 0 }]
      (some emptyTree) (some 0) =
      some ([{ token := nameTok "A", children := none, parent := none, id := 0 }],
            { root := some 0, current := some 0, size := 0 }, 0) := by rfl
  have hadd2 : AddChild hSplice (some t1Splice) (some 2) =
      some (setNode (setNode hSplice 0
              { nodeAt hSplice 0 with children := some (kidsOf hSplice 0 ++ [2]) }) 2
              { nodeAt (setNode hSplice 0
                  { nodeAt hSplice 0 with children := some (kidsOf hSplice 0 ++ [2]) }) 2
                  with parent := some 0 },
            { t1Splice with current := some 2 }, 2) := by rfl
  constructor
  · exact ⟨_, _, _, hadd1, (C4_rooting.1 _ emptyTree 0 _ _ _ rfl hadd1).1,
      (C4_rooting.1 _ emptyTree 0 _ _ _ rfl hadd1).2.1⟩
  · exact ⟨_, _, _, hadd2, C4_rooting.2 hSplice t1Splice 2 0 _ _ _ rfl hadd2⟩

/-! ### C5 - Parent -/

/-- C5 counterexample: on a one-node tree whose current node is the root,
Parent does NOT stop fatally - it returns normally, with the cursor set to
NULL. -/
theorem C5_counterexample :
    Parent [{ token := nameTok "A", children := none, parent := none, id := 0 }]
        { root := some 0, current := some 0, size := 1 } =
      some { root := some 0, current := none, size := 1 }
    ∧ (some { root := some 0, current := none, size := 1 } : Option Tree) ≠ none := by
  exact ⟨rfl, by simp⟩

/-- C5 (amended): Parent unconditionally moves the cursor to the parent of
the previous current node; when the current node is the root (parent NULL)
it therefore silently sets the cursor to NULL instead of stopping - no
check rejects the call.  The only fatal case is a NULL cursor. -/
theorem C5_parent_ascent :
    (∀ h t cur, t.current = some cur →
       Parent h t = some { t with current := (nodeAt h cur).parent })
    ∧ (∀ h t, t.current = none → Parent h t = none) := by
  constructor
  · intro h t cur hcur
    simp [Parent, hcur]
  · intro h t hcur
    simp [Parent, hcur]

/-- Witness for C5 at a concrete two-node tree. -/
theorem C5_witness :
    Parent hSplice { root := some 0, current := some 2, size := 1 } =
      some { root := some 0, current := some 0, size := 1 } := by
  have := C5_parent_ascent.1 hSplice
    { root := some 0, current := some 2, size := 1 } 2 rfl
  simpa using this

/-! ### C6 - AddChild preconditions -/

/-- C6: AddChild stops fatally exactly on a NULL tree, a NULL child, or a
child whose token text is NULL; otherwise it completes. -/
theorem C6_addchild_preconditions :
    ∀ (h : Heap) (t? : Option Tree) (c? : Option Nat),
      (AddChild h t? c? = none ↔
        t? = none ∨ c? = none ∨
          ∃ c, c? = some c ∧ (nodeAt h c).token.txt = none) := by
  intro h t? c?
  cases t? with
  | none => simp [AddChild]
  | some t =>
    cases c? with
    | none => simp [AddChild]
    | some c =>
      cases htxt : (nodeAt h c).token.txt with
      | none => simp [AddChild, htxt]
      | some s =>
        cases hcur : t.current with
        | none => simp [AddChild, htxt, hcur]
        | some cur => simp [AddChild, htxt, hcur]

/-! ### C7 - classification tables -/

/-- The token types CellBordersFormat maps to the borderless shape. -/
def noBorderTypes : List TokenType :=
  [TokenType.TOKEN_COLON, TokenType.TOKEN_SEMICOLON,
   TokenType.TOKEN_DOUBLE_QUOTE, TokenType.TOKEN_SINGLE_QUOTE,
   TokenType.TOKEN_EOF, TokenType.TOKEN_EQ]

/-- The four role values with a color of their own. -/
def namedRoles : List PrsrNdType :=
  [PrsrNdType.VAR_NAME, PrsrNdType.RULE_NAME,
   PrsrNdType.RULE_NAME_REFERENCE, PrsrNdType.VAR_NAME_REFERENCE]

/-- C7: both classification tables are total functions with an explicit
default: the designated punctuation/structural types map to "none", the
identifier type to "rectangle", every other type to "diamond"; each of the
four roles gets its own distinct color and every other role the single
default color. -/
theorem C7_classification_tables :
    (∀ ty ∈ noBorderTypes, CellBordersFormat ty = "none")
    ∧ CellBordersFormat TokenType.TOKEN_NAME = "rectangle"
    ∧ (∀ ty : TokenType, ty ∉ noBorderTypes → ty ≠ TokenType.TOKEN_NAME →
        CellBordersFormat ty = "diamond")
    ∧ CheckIfRuleName PrsrNdType.VAR_NAME = "yellow"
    ∧ CheckIfRuleName PrsrNdType.RULE_NAME = "cyan"
    ∧ CheckIfRuleName PrsrNdType.RULE_NAME_REFERENCE = "red"
    ∧ CheckIfRuleName PrsrNdType.VAR_NAME_REFERENCE = "green"
    ∧ (∀ r : PrsrNdType, r ∉ namedRoles → CheckIfRuleName r = "black")
    ∧ List.Pairwise (fun a b => a ≠ b)
        (namedRoles.map CheckIfRuleName ++ ["black"]) := by
  decide

/-- Witness for C7 at concrete inputs. -/
theorem C7_witness :
    CellBordersFormat TokenType.TOKEN_COLON = "none"
    ∧ CellBordersFormat TokenType.TOKEN_STAR = "diamond"
    ∧ CheckIfRuleName PrsrNdType.ROLE_NONE = "black" := by
  refine ⟨C7_classification_tables.1 _ (by decide),
    C7_classification_tables.2.2.1 _ (by decide) (by decide),
    C7_classification_tables.2.2.2.2.2.2.2.1 _ (by decide)⟩

/-! ### C8 - secondary label -/

/-- C8: the node record carries a non-empty secondary label (the canonical
name of the node's token type) exactly when the literal display text
differs from that canonical name; when they are equal the secondary label
is empty.  (The canonical names of TranslateTokenType are non-empty string
literals; this enters as the hypothesis on `tr`.) -/
theorem C8_secondary_label :
    ∀ (tr : TokenType → String) (n : Node) (s : String),
      (∀ ty, tr ty ≠ "") → n.token.txt = some s →
      ∃ r, emitNode tr n = some r ∧
        r.second = (if s = tr n.token.type then "" else tr n.token.type) ∧
        (r.second ≠ "" ↔ s ≠ tr n.token.type) := by
  intro tr n s htr htxt
  unfold emitNode
  rw [htxt]
  by_cases hs : s = tr n.token.type
  · simp only [if_pos hs]
    exact ⟨_, rfl, by simp [hs], by simp [hs]⟩
  · simp only [if_neg hs]
    exact ⟨_, rfl, by simp [hs], by simp [hs, htr n.token.type]⟩

/-- Witness for C8: a node whose text differs from the canonical name gets
that name as secondary label; one whose text equals it gets none. -/
theorem C8_witness :
    (∀ ty : TokenType, (fun (_ : TokenType) => "T") ty ≠ "")
    ∧ (∃ r, emitNode (fun (_ : TokenType) => "T")
        { token := nameTok "a", children := none, parent := none, id := 0 } = some r ∧
        r.second = (if "a" = "T" then "" else "T")
        ∧ (r.second ≠ "" ↔ "a" ≠ "T")) := by
  refine ⟨fun ty => by simp, ?_⟩
  exact C8_secondary_label (fun (_ : TokenType) => "T")
    { token := nameTok "a", children := none, parent := none, id := 0 } "a"
    (fun ty => by simp) rfl

/-! ### C10 - creation is detached -/

/-- The addresses reachable from the worklist `ws` by following child
links for at most `fuel` steps. -/
def reachList (h : Heap) : Nat → List Nat → List Nat
  | 0, ws => ws
  | fuel + 1, ws => ws ++ reachList h fuel (ws.flatMap (kidsOf h))

/-- Every child link of the heap stays inside the heap. -/
def ClosedHeap (h : Heap) : Prop :=
  ∀ a ∈ List.range h.length, ∀ c ∈ kidsOf h a, c < h.length

instance (h : Heap) : Decidable (ClosedHeap h) := by
  unfold ClosedHeap; infer_instance

theorem reachList_lt {h : Heap} (hcl : ClosedHeap h) :
    ∀ (fuel : Nat) (ws : List Nat), (∀ w ∈ ws, w < h.length) →
      ∀ x ∈ reachList h fuel ws, x < h.length := by
  intro fuel
  induction fuel with
  | zero => intro ws hws x hx; exact hws x hx
  | succ fuel ih =>
    intro ws hws x hx
    rw [reachList, List.mem_append] at hx
    rcases hx with hx | hx
    · exact hws x hx
    · refine ih _ ?_ x hx
      intro w hw
      rw [List.mem_flatMap] at hw
      obtain ⟨a, ha, hw⟩ := hw
      exact hcl a (List.mem_range.mpr (hws a ha)) w hw

theorem nodeAt_append {h : Heap} {nd : Node} {b : Nat} (hb : b < h.length) :
    nodeAt (h ++ [nd]) b = nodeAt h b := by
  simp [nodeAt, List.getD_eq_getElem?_getD, List.getElem?_append_left hb]

theorem kidsOf_append {h : Heap} {nd : Node} {b : Nat} (hb : b < h.length) :
    kidsOf (h ++ [nd]) b = kidsOf h b := by
  simp [kidsOf, nodeAt_append hb]

theorem flatMap_kidsOf_append {h : Heap} {nd : Node} :
    ∀ ws : List Nat, (∀ w ∈ ws, w < h.length) →
      ws.flatMap (kidsOf (h ++ [nd])) = ws.flatMap (kidsOf h) := by
  intro ws
  induction ws with
  | nil => intro _; rfl
  | cons a as iha =>
    intro hws
    rw [List.flatMap_cons, List.flatMap_cons, kidsOf_append (hws a (by simp)),
      iha (fun w hw => hws w (by simp [hw]))]

theorem reachList_append {h : Heap} {nd : Node} (hcl : ClosedHeap h) :
    ∀ (fuel : Nat) (ws : List Nat), (∀ w ∈ ws, w < h.length) →
      reachList (h ++ [nd]) fuel ws = reachList h fuel ws := by
  intro fuel
  induction fuel with
  | zero => intro ws hws; rfl
  | succ fuel ih =>
    intro ws hws
    rw [reachList, reachList, flatMap_kidsOf_append ws hws]
    congr 1
    refine ih _ ?_
    intro w hw
    rw [List.mem_flatMap] at hw
    obtain ⟨a, ha, hw⟩ := hw
    exact hcl a (List.mem_range.mpr (hws a ha)) w hw

/-- C10: node creation returns a detached node - NULL parent, NULL
children, and (for a heap whose child links stay in the heap) an address
not reachable from the tree's root - increments the size counter by
exactly one, and leaves the root, the cursor and every existing node
record untouched; this holds for `CreateNode` and for `CreateNodeByType`
alike. -/
theorem C10_creation_detached :
    (∀ (h : Heap) (t : Tree) (tok : Token) (h' : Heap) (t' : Tree) (a : Nat),
       ClosedHeap h → CreateNode h t tok = (h', t', a) →
       (nodeAt h' a).parent = none ∧ (nodeAt h' a).children = none ∧
       t'.size = t.size + 1 ∧ t'.root = t.root ∧ t'.current = t.current ∧
       (∀ b, b < h.length → nodeAt h' b = nodeAt h b) ∧
       (∀ r fuel, t.root = some r → r < h.length →
         a ∉ reachList h' fuel [r]))
    ∧ (∀ (tr : TokenType → String) (h : Heap) (t : Tree) (ty : TokenType)
         (h' : Heap) (t' : Tree) (a : Nat),
       ClosedHeap h → CreateNodeByType tr h t ty = (h', t', a) →
       (nodeAt h' a).parent = none ∧ (nodeAt h' a).children = none ∧
       t'.size = t.size + 1 ∧ t'.root = t.root ∧ t'.current = t.current ∧
       (∀ b, b < h.length → nodeAt h' b = nodeAt h b) ∧
       (∀ r fuel, t.root = some r → r < h.length →
         a ∉ reachList h' fuel [r])) := by
  have key : ∀ (h : Heap) (t : Tree) (nd : Node) (r : Nat) (fuel : Nat),
      ClosedHeap h → r < h.length → (h.length : Nat) ∉ reachList (h ++ [nd]) fuel [r] := by
    intro h t nd r fuel hcl hr hmem
    rw [reachList_append hcl fuel [r] (by intro w hw; simp at hw; omega)] at hmem
    have := reachList_lt hcl fuel [r] (by intro w hw; simp at hw; omega) _ hmem
    omega
  constructor
  · intro h t tok h' t' a hcl heq
    simp only [CreateNode] at heq
    injection heq with hh htp
    injection htp with ht ha
    subst hh ht ha
    refine ⟨?_, ?_, rfl, rfl, rfl, ?_, ?_⟩
    · simp [nodeAt, List.getD_eq_getElem?_getD, List.getElem?_concat_length]
    · simp [nodeAt, List.getD_eq_getElem?_getD, List.getElem?_concat_length]
    · intro b hb; exact nodeAt_append hb
    · intro r fuel hroot hr
      exact key h t _ r fuel hcl hr
  · intro tr h t ty h' t' a hcl heq
    simp only [CreateNodeByType] at heq
    injection heq with hh htp
    injection htp with ht ha
    subst hh ht ha
    refine ⟨?_, ?_, rfl, rfl, rfl, ?_, ?_⟩
    · simp [nodeAt, List.getD_eq_getElem?_getD, List.getElem?_concat_length]
    · simp [nodeAt, List.getD_eq_getElem?_getD, List.getElem?_concat_length]
    · intro b hb; exact nodeAt_append hb
    · intro r fuel hroot hr
      exact key h t _ r fuel hcl hr

/-- Witness for C10 on a concrete one-node heap. -/
theorem C10_witness :
    ClosedHeap [{ token := nameTok "A", children := none, parent := none, id := 0 }]
    ∧ (∃ h' t' a,
        CreateNode [{ token := nameTok "A", children := none, parent := none, id := 0 }]
          { root := some 0, current := some 0, size := 1 } (nameTok "B") = (h', t', a)
        ∧ (nodeAt h' a).parent = none ∧ t'.size = 2 ∧ a ∉ reachList h' 5 [0]) := by
  have hcl : ClosedHeap [{ token := nameTok "A", children := none, parent := none, id := 0 }] := by
    decide
  refine ⟨hcl, _, _, _, rfl, ?_, rfl, ?_⟩
  · exact ((C10_creation_detached.1 _ { root := some 0, current := some 0, size := 1 }
      (nameTok "B") _ _ _ hcl rfl).1)
  · exact ((C10_creation_detached.1 _ { root := some 0, current := some 0, size := 1 }
      (nameTok "B") _ _ _ hcl rfl).2.2.2.2.2.2 0 5 rfl (by decide))

/-! ### C9 - export determinism -/

theorem PrintFold_shift (tr : TokenType → String) (h : Heap) (fuel : Nat)
    (hN : ∀ a file, PrintNode tr h fuel a file =
      (PrintNode tr h fuel a []).map (fun d => file ++ d)) :
    ∀ (ks : List Nat) (file : List Line),
      ks.foldlM (fun acc c => PrintNode tr h fuel c acc) file =
        (ks.foldlM (fun acc c => PrintNode tr h fuel c acc) []).map (fun d => file ++ d) := by
  intro ks
  induction ks with
  | nil => intro file; simp [List.foldlM_nil]
  | cons k ks ih =>
    intro file
    rw [List.foldlM_cons, List.foldlM_cons]
    simp only [bind, Option.bind]
    rw [hN k file, hN k []]
    cases hk : PrintNode tr h fuel k [] with
    | none => simp
    | some d =>
      simp only [Option.map_some']
      rw [ih (file ++ ([] ++ d)), ih ([] ++ d)]
      cases ks.foldlM (fun acc c => PrintNode tr h fuel c acc) [] with
      | none => simp
      | some d2 => simp

theorem PrintNode_shift (tr : TokenType → String) (h : Heap) :
    ∀ (fuel : Nat) (a : Nat) (file : List Line),
      PrintNode tr h fuel a file =
        (PrintNode tr h fuel a []).map (fun d => file ++ d) := by
  intro fuel
  induction fuel with
  | zero => intro a file; simp [PrintNode]
  | succ fuel ih =>
    intro a file
    cases hemit : emitNode tr (nodeAt h a) with
    | none => simp [PrintNode, hemit]
    | some r =>
      cases hkids : (nodeAt h a).children with
      | none => simp [PrintNode, hemit, hkids]
      | some ks =>
        simp only [PrintNode, hemit, hkids]
        rw [PrintFold_shift tr h fuel ih ks (file ++ [Line.nodeRec r]),
          PrintFold_shift tr h fuel ih ks ([] ++ [Line.nodeRec r])]
        cases ks.foldlM (fun acc c => PrintNode tr h fuel c acc) [] with
        | none => simp
        | some d => simp

theorem ConnectFold_shift (h : Heap) (fuel : Nat)
    (hN : ∀ a file, ConnectNode h fuel a file =
      (ConnectNode h fuel a []).map (fun d => file ++ d)) :
    ∀ (ks : List Nat) (file : List Line),
      ks.foldlM (fun acc c => ConnectNode h fuel c acc) file =
        (ks.foldlM (fun acc c => ConnectNode h fuel c acc) []).map (fun d => file ++ d) := by
  intro ks
  induction ks with
  | nil => intro file; simp [List.foldlM_nil]
  | cons k ks ih =>
    intro file
    rw [List.foldlM_cons, List.foldlM_cons]
    simp only [bind, Option.bind]
    rw [hN k file, hN k []]
    cases hk : ConnectNode h fuel k [] with
    | none => simp
    | some d =>
      simp only [Option.map_some']
      rw [ih (file ++ ([] ++ d)), ih ([] ++ d)]
      cases ks.foldlM (fun acc c => ConnectNode h fuel c acc) [] with
      | none => simp
      | some d2 => simp

theorem ConnectNode_shift (h : Heap) :
    ∀ (fuel : Nat) (a : Nat) (file : List Line),
      ConnectNode h fuel a file =
        (ConnectNode h fuel a []).map (fun d => file ++ d) := by
  intro fuel
  induction fuel with
  | zero => intro a file; simp [ConnectNode]
  | succ fuel ih =>
    intro a file
    cases hkids : (nodeAt h a).children with
    | none => simp [ConnectNode, hkids]
    | some ks =>
      simp only [ConnectNode, hkids]
      rw [ConnectFold_shift h fuel ih ks (file ++ edgesOf h a),
        ConnectFold_shift h fuel ih ks ([] ++ edgesOf h a)]
      cases ks.foldlM (fun acc c => ConnectNode h fuel c acc) [] with
      | none => simp
      | some d => simp

/-- The whole export document is independent of what was already written:
running DebugTree into any file prefix appends the same document it would
produce from an empty file. -/
theorem DebugTree_shift (tr : TokenType → String) (h : Heap) (fuel : Nat)
    (t : Tree) (file : List Line) :
    DebugTree tr h fuel t file = (DebugTree tr h fuel t []).map (fun d => file ++ d) := by
  cases hroot : t.root with
  | none => simp [DebugTree, hroot]
  | some r =>
    cases hp : PrintNode tr h fuel r [] with
    | none =>
      have hp2 : ∀ f : List Line, PrintNode tr h fuel r f = none := by
        intro f; rw [PrintNode_shift tr h fuel r f, hp]; rfl
      simp [DebugTree, hroot, hp2]
    | some d1 =>
      have hp2 : ∀ f : List Line, PrintNode tr h fuel r f = some (f ++ d1) := by
        intro f; rw [PrintNode_shift tr h fuel r f, hp]; rfl
      cases hc : ConnectNode h fuel r [] with
      | none =>
        have hc2 : ∀ f : List Line, ConnectNode h fuel r f = none := by
          intro f; rw [ConnectNode_shift h fuel r f, hc]; rfl
        simp [DebugTree, hroot, hp2, hc2]
      | some d2 =>
        have hc2 : ∀ f : List Line, ConnectNode h fuel r f = some (f ++ d2) := by
          intro f; rw [ConnectNode_shift h fuel r f, hc]; rfl
        simp [DebugTree, hroot, hp2, hc2]

/-- C9: exporting an unmutated tree twice in a row writes the exact same
document (same node records, then the same edge records, in the same
pre-order sequence) twice: the second run appends precisely the document
the first run produced. -/
theorem C9_export_determinism :
    ∀ (tr : TokenType → String) (h : Heap) (fuel : Nat) (t : Tree) (d : List Line),
      DebugTree tr h fuel t [] = some d →
      DebugTree tr h fuel t d = some (d ++ d) := by
  intro tr h fuel t d hd
  rw [DebugTree_shift tr h fuel t d, hd]
  rfl

/-- Witness for C9 on a concrete one-node tree. -/
theorem C9_witness :
    DebugTree (fun (_ : TokenType) => "T")
        [{ token := nameTok "A", children := none, parent := none, id := 0 }] 5
        { root := some 0, current := some 0, size := 1 }
        [Line.header1, Line.header2,
         Line.nodeRec { id := 0, shape := "rectangle", color := "black",
                        txt := "A", second := "T" },
         Line.blank, Line.footer] =
      some ([Line.header1, Line.header2,
             Line.nodeRec { id := 0, shape := "rectangle", color := "black",
                            txt := "A", second := "T" },
             Line.blank, Line.footer] ++
            [Line.header1, Line.header2,
             Line.nodeRec { id := 0, shape := "rectangle", color := "black",
                            txt := "A", second := "T" },
             Line.blank, Line.footer]) := by
  exact C9_export_determinism (fun (_ : TokenType) => "T")
    [{ token := nameTok "A", children := none, parent := none, id := 0 }] 5
    { root := some 0, current := some 0, size := 1 } _ (by rfl)

end Rebecca
